import Mathlib

/-!
# DistanceMap (Endless Sky): breadth-first distance labelling and route replay

A shallow embedding of `src/DistanceMap.cpp`.

* A `const System *` is an index `Fin n` into the finite set of `n` systems of
  the galaxy; a null pointer is `none`.
* `System::Links()` and `System::Neighbors()` are the two adjacency vectors of a
  system, in enumeration order, duplicates allowed.
* `std::map<const System *, int> distance` is a finite function
  `Fin n → Option Int`; `find` is application, `distance[k] = v` is `insert`, and
  `begin()` is the entry with the least key.
* `int steps` is an unbounded integer: a label never exceeds the number of
  systems, which is far below `2^31` for every galaxy that fits in memory.
* Each `for(int steps = 1; !edge.empty(); ++steps)` loop carries a fuel that
  counts frontier expansions; `none` is "fuel exhausted".  The theorems show
  that `n` units of fuel always suffice in a galaxy of `n` systems.
-/

namespace DistanceMap

/-! ## Data model -/

/-- The galaxy: for every system its `Links()` and its `Neighbors()` vector. -/
structure Galaxy (n : Nat) where
  Links : Fin n → List (Fin n)
  Neighbors : Fin n → List (Fin n)

/-- The part of `Ship` the map reads: `GetSystem()` (possibly null) and whether
`Attributes().Get("jump drive")` and `Attributes().Get("hyperdrive")` convert to
`true` in the `if` conditions of the constructor. -/
structure Ship (n : Nat) where
  GetSystem : Option (Fin n)
  jumpDrive : Bool
  hyperdrive : Bool

/-- The part of `PlayerInfo` the map reads: `GetShip()` (possibly null) and the
two knowledge predicates. -/
structure PlayerInfo (n : Nat) where
  GetShip : Option (Ship n)
  HasSeen : Fin n → Bool
  HasVisited : Fin n → Bool

/-- The `std::map<const System *, int>` member `distance`. -/
abbrev LabelMap (n : Nat) := Fin n → Option Int

/-- The empty map of a freshly constructed object. -/
def LabelMap.empty {n : Nat} : LabelMap n := fun _ => none

/-- The assignment `distance[k] = v`. -/
def LabelMap.insert {n : Nat} (d : LabelMap n) (k : Fin n) (v : Int) : LabelMap n :=
  fun s => if s = k then some v else d s

/-- The key of `distance.begin()`: the least labelled system, if any. -/
def LabelMap.begin {n : Nat} (d : LabelMap n) : Option (Fin n) :=
  (List.finRange n).find? (fun s => (d s).isSome)

/-- Modelled from the spec: the declaration of the member `hasJump` is in
`DistanceMap.h`, which is not part of the sources at hand.  The spec describes it
as the flag "recording whether the active traversal used the jump-drive neighbor
relation", and `Route` replays the links view unless it is set, so a new object
starts with the flag cleared. -/
def hasJumpDefault : Bool := false

end DistanceMap

/-- The object state: the label map and the `hasJump` flag. -/
structure DistanceMap (n : Nat) where
  distance : DistanceMap.LabelMap n
  hasJump : Bool

namespace DistanceMap

/-- The state of an object before the constructor body runs. -/
def fresh {n : Nat} : DistanceMap n :=
  { distance := LabelMap.empty, hasJump := hasJumpDefault }

/-- The assignment `distance[k] = v` on the object. -/
def label {n : Nat} (m : DistanceMap n) (k : Fin n) (v : Int) : DistanceMap n :=
  { m with distance := m.distance.insert k v }

/-! ## Queries -/

/-- `DistanceMap::HasRoute`: is the system labelled? -/
def HasRoute {n : Nat} (m : DistanceMap n) (system : Fin n) : Bool :=
  match m.distance system with
  | none => false
  | some _ => true

/-- `DistanceMap::Distance`: the label, or `-1` when there is none. -/
def Distance {n : Nat} (m : DistanceMap n) (system : Fin n) : Int :=
  match m.distance system with
  | none => -1
  | some v => v

/-- The test of the loop body of `Route`: `link` is labelled and its label is
strictly below `own`. -/
def closer {n : Nat} (d : LabelMap n) (own : Int) (link : Fin n) : Bool :=
  match d link with
  | none => false
  | some v => decide (v < own)

/-- `DistanceMap::Route`: `none` is the null pointer. -/
def Route {n : Nat} (m : DistanceMap n) (g : Galaxy n) (system : Fin n) : Option (Fin n) :=
  match m.distance system with
  | none => none
  | some own =>
    match (if m.hasJump then g.Neighbors system else g.Links system).find?
        (closer m.distance own) with
    | some link => some link
    | none => some system

/-! ## The three labelling loops -/

/-- The body of the innermost loop of `Init` for one `link`. -/
def InitVisit {n : Nat} (steps : Int) (st : LabelMap n × List (Fin n)) (link : Fin n) :
    LabelMap n × List (Fin n) :=
  if (st.1 link).isSome then st
  else (st.1.insert link steps, st.2 ++ [link])

/-- One pass of the two nested `for` loops of `Init`: the new map and `newEdge`. -/
def InitExpand {n : Nat} (g : Galaxy n) (steps : Int) (d : LabelMap n) (edge : List (Fin n)) :
    LabelMap n × List (Fin n) :=
  edge.foldl (fun st system => (g.Links system).foldl (InitVisit steps) st) (d, [])

/-- The loop `for(int steps = 1; !edge.empty(); ++steps)` of `Init`. -/
def InitLoop {n : Nat} (g : Galaxy n) : Nat → Int → LabelMap n → List (Fin n) → Option (LabelMap n)
  | _, _, d, [] => some d
  | 0, _, _, _ :: _ => none
  | fuel + 1, steps, d, system :: rest =>
    InitLoop g fuel (steps + 1) (InitExpand g steps d (system :: rest)).1
      (InitExpand g steps d (system :: rest)).2

/-- `DistanceMap::Init`.  Dereferencing `begin()` of an empty map has no defined
result; both constructors label the origin first. -/
def Init {n : Nat} (g : Galaxy n) (fuel : Nat) (m : DistanceMap n) : Option (DistanceMap n) :=
  match m.distance.begin with
  | none => none
  | some first =>
    (InitLoop g fuel 1 m.distance [first]).map (fun d => { m with distance := d })

/-- The body of the innermost loop of `InitHyper` for one `link` of `system`. -/
def InitHyperVisit {n : Nat} (player : PlayerInfo n) (steps : Int) (system : Fin n)
    (st : LabelMap n × List (Fin n)) (link : Fin n) : LabelMap n × List (Fin n) :=
  if !player.HasSeen link then st
  else if !player.HasVisited link && !player.HasVisited system then st
  else if (st.1 link).isSome then st
  else (st.1.insert link steps, st.2 ++ [link])

/-- One pass of the two nested `for` loops of `InitHyper`. -/
def InitHyperExpand {n : Nat} (g : Galaxy n) (player : PlayerInfo n) (steps : Int)
    (d : LabelMap n) (edge : List (Fin n)) : LabelMap n × List (Fin n) :=
  edge.foldl (fun st system => (g.Links system).foldl (InitHyperVisit player steps system) st)
    (d, [])

/-- The loop `for(int steps = 1; !edge.empty(); ++steps)` of `InitHyper`. -/
def InitHyperLoop {n : Nat} (g : Galaxy n) (player : PlayerInfo n) :
    Nat → Int → LabelMap n → List (Fin n) → Option (LabelMap n)
  | _, _, d, [] => some d
  | 0, _, _, _ :: _ => none
  | fuel + 1, steps, d, system :: rest =>
    InitHyperLoop g player fuel (steps + 1) (InitHyperExpand g player steps d (system :: rest)).1
      (InitHyperExpand g player steps d (system :: rest)).2

/-- `DistanceMap::InitHyper`. -/
def InitHyper {n : Nat} (g : Galaxy n) (player : PlayerInfo n) (fuel : Nat) (m : DistanceMap n) :
    Option (DistanceMap n) :=
  match m.distance.begin with
  | none => none
  | some first =>
    (InitHyperLoop g player fuel 1 m.distance [first]).map (fun d => { m with distance := d })

/-- The body of the innermost loop of `InitJump` for one `link`. -/
def InitJumpVisit {n : Nat} (player : PlayerInfo n) (steps : Int)
    (st : LabelMap n × List (Fin n)) (link : Fin n) : LabelMap n × List (Fin n) :=
  if !player.HasSeen link then st
  else if (st.1 link).isSome then st
  else (st.1.insert link steps, st.2 ++ [link])

/-- One pass of the two nested `for` loops of `InitJump`. -/
def InitJumpExpand {n : Nat} (g : Galaxy n) (player : PlayerInfo n) (steps : Int)
    (d : LabelMap n) (edge : List (Fin n)) : LabelMap n × List (Fin n) :=
  edge.foldl (fun st system => (g.Neighbors system).foldl (InitJumpVisit player steps) st)
    (d, [])

/-- The loop `for(int steps = 1; !edge.empty(); ++steps)` of `InitJump`. -/
def InitJumpLoop {n : Nat} (g : Galaxy n) (player : PlayerInfo n) :
    Nat → Int → LabelMap n → List (Fin n) → Option (LabelMap n)
  | _, _, d, [] => some d
  | 0, _, _, _ :: _ => none
  | fuel + 1, steps, d, system :: rest =>
    InitJumpLoop g player fuel (steps + 1) (InitJumpExpand g player steps d (system :: rest)).1
      (InitJumpExpand g player steps d (system :: rest)).2

/-- `DistanceMap::InitJump`: sets `hasJump`, then labels over `Neighbors()`. -/
def InitJump {n : Nat} (g : Galaxy n) (player : PlayerInfo n) (fuel : Nat) (m : DistanceMap n) :
    Option (DistanceMap n) :=
  match m.distance.begin with
  | none => none
  | some first =>
    (InitJumpLoop g player fuel 1 m.distance [first]).map
      (fun d => { distance := d, hasJump := true })

/-! ## The two constructors -/

/-- `DistanceMap::DistanceMap(const System *center, const Set<System> &systems)`.
The argument `systems` is not read by the source. -/
def fromCenter {n : Nat} (g : Galaxy n) (fuel : Nat) (center : Fin n) : Option (DistanceMap n) :=
  Init g fuel (label fresh center 0)

/-- `DistanceMap::DistanceMap(const PlayerInfo &player, const Set<System> &systems)`. -/
def fromPlayer {n : Nat} (g : Galaxy n) (fuel : Nat) (player : PlayerInfo n) :
    Option (DistanceMap n) :=
  match player.GetShip with
  | none => some fresh
  | some ship =>
    match ship.GetSystem with
    | none => some fresh
    | some system =>
      if ship.jumpDrive then
        InitJump g player fuel (label fresh system 0)
      else if ship.hyperdrive then
        InitHyper g player fuel (label fresh system 0)
      else
        some (label fresh system 0)

/-! ## Hop paths and the common shape of the three loops -/

/-- A path `o = x0, x1, ..., xk = s` of `k` hops, every hop an edge of `E`. -/
inductive HopPath {n : Nat} (E : Fin n → Fin n → Prop) (o : Fin n) : Fin n → Nat → Prop
  | start : HopPath E o o 0
  | hop {a b : Fin n} {k : Nat} : HopPath E o a k → E a b → HopPath E o b (k + 1)

/-- A shortest `E`-path from `o` to `s` has exactly `k` hops. -/
def Shortest {n : Nat} (E : Fin n → Fin n → Prop) (o s : Fin n) (k : Nat) : Prop :=
  HopPath E o s k ∧ ∀ j, HopPath E o s j → k ≤ j

/-- Some `E`-path leads from `o` to `s`. -/
def Reachable {n : Nat} (E : Fin n → Fin n → Prop) (o s : Fin n) : Prop :=
  ∃ k, HopPath E o s k

/-- The edge `a → b` is enumerated by `adj a` and passes the predicate `adm`. -/
def Admits {n : Nat} (adj : Fin n → List (Fin n)) (adm : Fin n → Fin n → Bool)
    (a b : Fin n) : Prop :=
  b ∈ adj a ∧ adm a b = true

/-- Unrestricted mode: a hop `a → b` follows a `Links()` entry of `a`. -/
def linkEdge {n : Nat} (g : Galaxy n) (a b : Fin n) : Prop :=
  b ∈ g.Links a

/-- Hyperdrive mode: a hop `a → b` follows a `Links()` entry of `a`, the player
has seen `b`, and has visited `b` or `a`. -/
def hyperEdge {n : Nat} (g : Galaxy n) (player : PlayerInfo n) (a b : Fin n) : Prop :=
  b ∈ g.Links a ∧ player.HasSeen b = true ∧
    (player.HasVisited b = true ∨ player.HasVisited a = true)

/-- Jump-drive mode: a hop `a → b` follows a `Neighbors()` entry of `a` and the
player has seen `b`. -/
def jumpEdge {n : Nat} (g : Galaxy n) (player : PlayerInfo n) (a b : Fin n) : Prop :=
  b ∈ g.Neighbors a ∧ player.HasSeen b = true

/-- The two tests of `InitHyper` on a hop `system → link`, as one predicate. -/
def hyperAdm {n : Nat} (player : PlayerInfo n) (system link : Fin n) : Bool :=
  !(!player.HasSeen link) && !(!player.HasVisited link && !player.HasVisited system)

/-- The test of `InitJump` on a hop `system → link`, as a predicate. -/
def jumpAdm {n : Nat} (player : PlayerInfo n) (_system link : Fin n) : Bool :=
  !(!player.HasSeen link)

/-- A player whose ship is in `system` with the given drives. -/
def pilot {n : Nat} (system : Fin n) (jump hyper : Bool) (seen visited : Fin n → Bool) :
    PlayerInfo n :=
  { GetShip := some { GetSystem := some system, jumpDrive := jump, hyperdrive := hyper },
    HasSeen := seen, HasVisited := visited }

/-- The loop body shared by the three modes, parametrised by the predicate. -/
def bfsVisit {n : Nat} (adm : Fin n → Fin n → Bool) (steps : Int) (system : Fin n)
    (st : LabelMap n × List (Fin n)) (link : Fin n) : LabelMap n × List (Fin n) :=
  if adm system link then
    (if (st.1 link).isSome then st else (st.1.insert link steps, st.2 ++ [link]))
  else st

/-- One frontier expansion, parametrised by adjacency view and predicate. -/
def bfsExpand {n : Nat} (adj : Fin n → List (Fin n)) (adm : Fin n → Fin n → Bool) (steps : Int)
    (d : LabelMap n) (edge : List (Fin n)) : LabelMap n × List (Fin n) :=
  edge.foldl (fun st system => (adj system).foldl (bfsVisit adm steps system) st) (d, [])

/-- The frontier loop, parametrised by adjacency view and predicate. -/
def bfsLoop {n : Nat} (adj : Fin n → List (Fin n)) (adm : Fin n → Fin n → Bool) :
    Nat → Int → LabelMap n → List (Fin n) → Option (LabelMap n)
  | _, _, d, [] => some d
  | 0, _, _, _ :: _ => none
  | fuel + 1, steps, d, system :: rest =>
    bfsLoop adj adm fuel (steps + 1) (bfsExpand adj adm steps d (system :: rest)).1
      (bfsExpand adj adm steps d (system :: rest)).2

/-- The effect of a stretch of the loop body on the pair (map, `newEdge`): the
systems of `P` that were unlabelled get the label `steps` and are appended. -/
def Grows {n : Nat} (steps : Int) (P : Fin n → Prop) (st st' : LabelMap n × List (Fin n)) :
    Prop :=
  (∀ s j, st'.1 s = some j ↔ (st.1 s = some j ∨ (st.1 s = none ∧ j = steps ∧ P s))) ∧
  (∀ s, s ∈ st'.2 ↔ (s ∈ st.2 ∨ (st.1 s = none ∧ P s)))

/-- The loop invariant at the head of the iteration with `steps = k + 1`: the map
holds exactly the systems at shortest distance at most `k`, the frontier exactly
those at shortest distance `k`. -/
def LevelInv {n : Nat} (E : Fin n → Fin n → Prop) (o : Fin n) (k : Nat) (d : LabelMap n)
    (edge : List (Fin n)) : Prop :=
  (∀ s j, d s = some j ↔ ∃ i : Nat, i ≤ k ∧ j = (i : Int) ∧ Shortest E o s i) ∧
  (∀ s, s ∈ edge ↔ Shortest E o s k)

/-- The finished map: a system carries the label `j` exactly when `j` is the
length of a shortest path to it. -/
def Labelled {n : Nat} (E : Fin n → Fin n → Prop) (o : Fin n) (d : LabelMap n) : Prop :=
  ∀ s j, d s = some j ↔ ∃ i : Nat, j = (i : Int) ∧ Shortest E o s i

/-! ## Fixtures -/

/-- The adjacency of a four-system fixture given by one list per system. -/
def adj4 (a b c d : List (Fin 4)) : Fin 4 → List (Fin 4) :=
  fun s => match s.val with
    | 0 => a
    | 1 => b
    | 2 => c
    | _ => d

/-- Linear links A–B–C–D (A = 0, ..., D = 3), no neighbors. -/
def lineGalaxy : Galaxy 4 :=
  { Links := adj4 [1] [0, 2] [1, 3] [2], Neighbors := fun _ => [] }

/-- Links A–B, A–C, B–D (A = 0, ..., D = 3), no neighbors. -/
def forkGalaxy : Galaxy 4 :=
  { Links := adj4 [1, 2] [0, 3] [0] [1], Neighbors := fun _ => [] }

/-- Every system of a fixture is known. -/
def allOf (n : Nat) : Fin n → Bool := fun _ => true

/-- Only the listed systems are known. -/
def onlyOf {n : Nat} (l : List (Fin n)) : Fin n → Bool := fun s => decide (s ∈ l)

/-- A direct link A–D, while the neighbor relation is the chain A–B–C–D. -/
def shortcutGalaxy : Galaxy 4 :=
  { Links := adj4 [3] [] [] [0], Neighbors := adj4 [1] [0, 2] [1, 3] [2] }

/-- The adjacency given by one list per system, in index order. -/
def adjOf {n : Nat} (ls : List (List (Fin n))) : Fin n → List (Fin n) :=
  fun s => ls.getD s.val []

/-- A single one-way connection A → B (A = 0, B = 1) in both adjacency views. -/
def oneWayGalaxy : Galaxy 2 :=
  { Links := adjOf [[1], []], Neighbors := adjOf [[1], []] }

/-- Symmetric links O–Q, Q–S, O–P1, P1–P2, P2–S (O = 0, Q = 1, P1 = 2, P2 = 3,
S = 4); `Links(S)` enumerates Q before P2. -/
def detourGalaxy : Galaxy 5 :=
  { Links := adjOf [[1, 2], [0, 4], [0, 3], [2, 4], [1, 3]], Neighbors := fun _ => [] }

/-- A player without a ship. -/
def shipless {n : Nat} (seen visited : Fin n → Bool) : PlayerInfo n :=
  { GetShip := none, HasSeen := seen, HasVisited := visited }

/-- A player whose ship has no current system. -/
def adrift {n : Nat} (jump hyper : Bool) (seen visited : Fin n → Bool) : PlayerInfo n :=
  { GetShip := some { GetSystem := none, jumpDrive := jump, hyperdrive := hyper },
    HasSeen := seen, HasVisited := visited }

/-- No hop at all: the edge relation of a ship without a drive. -/
def noEdge {n : Nat} (_a _b : Fin n) : Prop := False

/-- The system reached from `system` by following `Route` `i` times. -/
def routeIter {n : Nat} (m : DistanceMap n) (g : Galaxy n) : Nat → Fin n → Option (Fin n)
  | 0, system => some system
  | i + 1, system => (routeIter m g i system).bind (m.Route g)

/-- The pair (map, `edge`) at the head of the iteration of the loop of `Init`
that follows `k` expansions, started from the map `d` and the frontier `edge`. -/
def InitState {n : Nat} (g : Galaxy n) (d : LabelMap n) (edge : List (Fin n)) :
    Nat → LabelMap n × List (Fin n)
  | 0 => (d, edge)
  | k + 1 => InitExpand g ((k : Int) + 1) (InitState g d edge k).1 (InitState g d edge k).2

/-- The pair (map, `edge`) of the loop of `InitHyper` after `k` expansions. -/
def InitHyperState {n : Nat} (g : Galaxy n) (player : PlayerInfo n) (d : LabelMap n)
    (edge : List (Fin n)) : Nat → LabelMap n × List (Fin n)
  | 0 => (d, edge)
  | k + 1 => InitHyperExpand g player ((k : Int) + 1) (InitHyperState g player d edge k).1
      (InitHyperState g player d edge k).2

/-- The pair (map, `edge`) of the loop of `InitJump` after `k` expansions. -/
def InitJumpState {n : Nat} (g : Galaxy n) (player : PlayerInfo n) (d : LabelMap n)
    (edge : List (Fin n)) : Nat → LabelMap n × List (Fin n)
  | 0 => (d, edge)
  | k + 1 => InitJumpExpand g player ((k : Int) + 1) (InitJumpState g player d edge k).1
      (InitJumpState g player d edge k).2

/-- The pair (map, `edge`) of the common loop after `k` expansions. -/
def bfsState {n : Nat} (adj : Fin n → List (Fin n)) (adm : Fin n → Fin n → Bool)
    (d : LabelMap n) (edge : List (Fin n)) : Nat → LabelMap n × List (Fin n)
  | 0 => (d, edge)
  | k + 1 => bfsExpand adj adm ((k : Int) + 1) (bfsState adj adm d edge k).1
      (bfsState adj adm d edge k).2

/-- A pair (map, `newEdge`) in which `newEdge` has no duplicates and holds
labelled systems only. -/
def Tidy {n : Nat} (st : LabelMap n × List (Fin n)) : Prop :=
  st.2.Nodup ∧ ∀ x, x ∈ st.2 → ∃ j, st.1 x = some j

/-- The run of a frontier loop in a galaxy of `n` systems, given the pair
(map, `edge`) after each number of expansions and the result for each fuel: the
frontier is empty after some `k ≤ n` expansions and not before, the loop then
returns the map it has reached, every frontier is free of duplicates, and no
system is in two frontiers. -/
def FrontierRun (n : Nat) (state : Nat → LabelMap n × List (Fin n))
    (loop : Nat → Option (LabelMap n)) : Prop :=
  (∃ k, k ≤ n ∧ (state k).2 = [] ∧ (∀ i, i < k → (state i).2 ≠ []) ∧
    ∀ fuel, k ≤ fuel → loop fuel = some (state k).1) ∧
  (∀ i, (state i).2.Nodup) ∧
  (∀ i j x, i ≠ j → x ∈ (state i).2 → x ∉ (state j).2)

/-- A one-way cycle A → B → C → A (A = 0, B = 1, C = 2) in both views. -/
def cycleGalaxy : Galaxy 3 :=
  { Links := adjOf [[1], [2], [0]], Neighbors := adjOf [[1], [2], [0]] }

/-- Three systems with self-links, repeated entries and a cycle, in both views. -/
def knotGalaxy : Galaxy 3 :=
  { Links := adjOf [[0, 1, 1], [2, 1, 2], [0, 0]],
    Neighbors := adjOf [[0, 1, 1], [2, 1, 2], [0, 0]] }

/-- The linear fixture A–B–C–D with the links of every system enumerated in
another order and with repetitions. -/
def shuffledLineGalaxy : Galaxy 4 :=
  { Links := adj4 [1, 1] [2, 0] [3, 1, 3] [2, 2], Neighbors := fun _ => [] }

/-! ## Paths -/

theorem hopPath_zero {n : Nat} {E : Fin n → Fin n → Prop} {o s : Fin n}
    (h : HopPath E o s 0) : s = o := by
  cases h
  rfl

theorem hopPath_succ {n : Nat} {E : Fin n → Fin n → Prop} {o s : Fin n} {k : Nat}
    (h : HopPath E o s (k + 1)) : ∃ a, HopPath E o a k ∧ E a s := by
  cases h with
  | hop h1 h2 => exact ⟨_, h1, h2⟩

theorem shortest_zero {n : Nat} (E : Fin n → Fin n → Prop) (o s : Fin n) :
    Shortest E o s 0 ↔ s = o := by
  constructor
  · intro h
    exact hopPath_zero h.1
  · intro h
    subst h
    exact ⟨HopPath.start, fun j _ => Nat.zero_le j⟩

theorem shortest_unique {n : Nat} {E : Fin n → Fin n → Prop} {o s : Fin n} {i j : Nat}
    (hi : Shortest E o s i) (hj : Shortest E o s j) : i = j :=
  Nat.le_antisymm (hi.2 j hj.1) (hj.2 i hi.1)

theorem exists_shortest {n : Nat} {E : Fin n → Fin n → Prop} {o s : Fin n} (j : Nat)
    (h : HopPath E o s j) : ∃ i, i ≤ j ∧ Shortest E o s i := by
  induction j using Nat.strong_induction_on with
  | _ j ih =>
    by_cases hmin : ∀ i, HopPath E o s i → j ≤ i
    · exact ⟨j, Nat.le_refl j, h, hmin⟩
    · push_neg at hmin
      obtain ⟨i, hi, hlt⟩ := hmin
      obtain ⟨i', hi', hs⟩ := ih i hlt hi
      exact ⟨i', by omega, hs⟩

theorem shortest_pred {n : Nat} {E : Fin n → Fin n → Prop} {o s : Fin n} {k : Nat}
    (h : Shortest E o s (k + 1)) : ∃ a, Shortest E o a k ∧ E a s := by
  obtain ⟨a, ha, hE⟩ := hopPath_succ h.1
  obtain ⟨i, hik, hs⟩ := exists_shortest k ha
  have h1 : k + 1 ≤ i + 1 := h.2 (i + 1) (HopPath.hop hs.1 hE)
  have hki : i = k := by omega
  subst hki
  exact ⟨a, hs, hE⟩

theorem shortest_succ {n : Nat} {E : Fin n → Fin n → Prop} {o a s : Fin n} {k : Nat}
    (ha : Shortest E o a k) (hE : E a s) (hno : ∀ i, i ≤ k → ¬ Shortest E o s i) :
    Shortest E o s (k + 1) := by
  refine ⟨HopPath.hop ha.1 hE, fun j hj => ?_⟩
  obtain ⟨i, hij, hs⟩ := exists_shortest j hj
  by_contra hlt
  exact hno i (by omega) hs

theorem shortest_below {n : Nat} {E : Fin n → Fin n → Prop} {o : Fin n} (i : Nat) :
    ∀ s, Shortest E o s i → ∀ j, j ≤ i → ∃ t, Shortest E o t j := by
  induction i with
  | zero =>
    intro s hs j hj
    have : j = 0 := by omega
    subst this
    exact ⟨s, hs⟩
  | succ i ih =>
    intro s hs j hj
    by_cases hji : j = i + 1
    · subst hji
      exact ⟨s, hs⟩
    · obtain ⟨a, ha, _⟩ := shortest_pred hs
      exact ih a ha j (by omega)

theorem shortest_lt_card {n : Nat} {E : Fin n → Fin n → Prop} {o s : Fin n} {k : Nat}
    (h : Shortest E o s k) : k < n := by
  have hex : ∀ j : Fin (k + 1), ∃ t, Shortest E o t j.val :=
    fun j => shortest_below k s h j.val (by omega)
  choose f hf using hex
  have hinj : Function.Injective f := by
    intro a b hab
    have h1 := hf a
    rw [hab] at h1
    exact Fin.ext (shortest_unique h1 (hf b))
  have := Fintype.card_le_of_injective f hinj
  simp only [Fintype.card_fin] at this
  omega

/-! ## One frontier expansion -/

theorem grows_refl {n : Nat} (steps : Int) (st : LabelMap n × List (Fin n)) :
    Grows steps (fun _ => False) st st := by
  constructor
  · intro s j
    simp
  · intro s
    simp

theorem grows_congr {n : Nat} {steps : Int} {P Q : Fin n → Prop}
    {st st' : LabelMap n × List (Fin n)} (hPQ : ∀ s, P s ↔ Q s) (h : Grows steps P st st') :
    Grows steps Q st st' := by
  have : P = Q := funext fun s => propext (hPQ s)
  rw [← this]
  exact h

theorem grows_none {n : Nat} {steps : Int} {P : Fin n → Prop}
    {st st' : LabelMap n × List (Fin n)} (h : Grows steps P st st') (s : Fin n) :
    st'.1 s = none ↔ (st.1 s = none ∧ ¬ P s) := by
  obtain ⟨h1, _⟩ := h
  constructor
  · intro hn
    refine ⟨?_, ?_⟩
    · cases hst : st.1 s with
      | none => rfl
      | some v =>
        have := (h1 s v).2 (Or.inl hst)
        rw [hn] at this
        cases this
    · intro hp
      cases hst : st.1 s with
      | none =>
        have := (h1 s steps).2 (Or.inr ⟨hst, rfl, hp⟩)
        rw [hn] at this
        cases this
      | some v =>
        have := (h1 s v).2 (Or.inl hst)
        rw [hn] at this
        cases this
  · rintro ⟨hn, hp⟩
    cases hst : st'.1 s with
    | none => rfl
    | some v =>
      rcases (h1 s v).1 hst with h | ⟨_, _, h⟩
      · rw [hn] at h
        cases h
      · exact absurd h hp

theorem grows_trans {n : Nat} {steps : Int} {P Q : Fin n → Prop}
    {st st' st'' : LabelMap n × List (Fin n)} (h : Grows steps P st st')
    (h' : Grows steps Q st' st'') : Grows steps (fun s => P s ∨ Q s) st st'' := by
  have hnone := grows_none h
  obtain ⟨h1, h1e⟩ := h
  obtain ⟨h2, h2e⟩ := h'
  constructor
  · intro s j
    rw [h2 s j, h1 s j, hnone s]
    by_cases hp : P s <;> tauto
  · intro s
    rw [h2e s, h1e s, hnone s]
    by_cases hp : P s <;> tauto

theorem grows_visit {n : Nat} (adm : Fin n → Fin n → Bool) (steps : Int) (a link : Fin n)
    (st : LabelMap n × List (Fin n)) :
    Grows steps (fun s => s = link ∧ adm a link = true) st (bfsVisit adm steps a st link) := by
  unfold bfsVisit
  by_cases hadm : adm a link = true
  · rw [if_pos hadm]
    cases hl : st.1 link with
    | some v =>
      simp only [Option.isSome_some, if_true]
      constructor
      · intro s j
        constructor
        · intro h
          exact Or.inl h
        · rintro (h | ⟨h, _, rfl, _⟩)
          · exact h
          · rw [hl] at h
            cases h
      · intro s
        constructor
        · intro h
          exact Or.inl h
        · rintro (h | ⟨h, rfl, _⟩)
          · exact h
          · rw [hl] at h
            cases h
    | none =>
      simp only [Option.isSome_none, Bool.false_eq_true, if_false]
      constructor
      · intro s j
        simp only [LabelMap.insert]
        by_cases hs : s = link
        · subst hs
          simp only [if_true, hl, hadm, and_true, true_and]
          constructor
          · intro h
            exact Or.inr (Option.some.inj h).symm
          · rintro (h | h)
            · cases h
            · rw [h]
        · simp [hs]
      · intro s
        simp only [List.mem_append, List.mem_singleton]
        by_cases hs : s = link
        · subst hs
          simp [hl, hadm]
        · simp [hs]
  · rw [if_neg hadm]
    refine grows_congr ?_ (grows_refl steps st)
    intro s
    simp [hadm]

theorem grows_links {n : Nat} (adm : Fin n → Fin n → Bool) (steps : Int) (a : Fin n)
    (ls : List (Fin n)) : ∀ st : LabelMap n × List (Fin n),
    Grows steps (fun s => s ∈ ls ∧ adm a s = true) st (ls.foldl (bfsVisit adm steps a) st) := by
  induction ls with
  | nil =>
    intro st
    refine grows_congr ?_ (grows_refl steps st)
    intro s
    simp
  | cons l ls ih =>
    intro st
    rw [List.foldl_cons]
    refine grows_congr ?_ (grows_trans (grows_visit adm steps a l st) (ih _))
    intro s
    simp only [List.mem_cons]
    constructor
    · rintro (⟨rfl, h⟩ | ⟨h1, h2⟩)
      · exact ⟨Or.inl rfl, h⟩
      · exact ⟨Or.inr h1, h2⟩
    · rintro ⟨rfl | h1, h2⟩
      · exact Or.inl ⟨rfl, h2⟩
      · exact Or.inr ⟨h1, h2⟩

theorem grows_edge {n : Nat} (adj : Fin n → List (Fin n)) (adm : Fin n → Fin n → Bool)
    (steps : Int) (edge : List (Fin n)) : ∀ st : LabelMap n × List (Fin n),
    Grows steps (fun s => ∃ a, a ∈ edge ∧ Admits adj adm a s) st
      (edge.foldl (fun st system => (adj system).foldl (bfsVisit adm steps system) st) st) := by
  induction edge with
  | nil =>
    intro st
    refine grows_congr ?_ (grows_refl steps st)
    intro s
    simp
  | cons a edge ih =>
    intro st
    rw [List.foldl_cons]
    refine grows_congr ?_ (grows_trans (grows_links adm steps a (adj a) st) (ih _))
    intro s
    simp only [List.mem_cons, Admits]
    constructor
    · rintro (h | ⟨b, hb, h⟩)
      · exact ⟨a, Or.inl rfl, h⟩
      · exact ⟨b, Or.inr hb, h⟩
    · rintro ⟨b, rfl | hb, h⟩
      · exact Or.inl h
      · exact Or.inr ⟨b, hb, h⟩

theorem grows_expand {n : Nat} (adj : Fin n → List (Fin n)) (adm : Fin n → Fin n → Bool)
    (steps : Int) (d : LabelMap n) (edge : List (Fin n)) :
    Grows steps (fun s => ∃ a, a ∈ edge ∧ Admits adj adm a s) (d, [])
      (bfsExpand adj adm steps d edge) :=
  grows_edge adj adm steps edge (d, [])

/-! ## The loop invariant -/

theorem levelInv_seed {n : Nat} (E : Fin n → Fin n → Prop) (o : Fin n) :
    LevelInv E o 0 (LabelMap.empty.insert o 0) [o] := by
  constructor
  · intro s j
    simp only [LabelMap.insert, LabelMap.empty]
    constructor
    · intro h
      by_cases hs : s = o
      · rw [if_pos hs] at h
        exact ⟨0, Nat.le_refl 0, (Option.some.inj h).symm, (shortest_zero E o s).2 hs⟩
      · rw [if_neg hs] at h
        cases h
    · rintro ⟨i, hi, rfl, hsh⟩
      have hi0 : i = 0 := by omega
      subst hi0
      rw [if_pos ((shortest_zero E o s).1 hsh)]
      rfl
  · intro s
    rw [shortest_zero, List.mem_singleton]

theorem levelInv_new {n : Nat} {E : Fin n → Fin n → Prop} {o : Fin n} {k : Nat}
    {d : LabelMap n} {edge : List (Fin n)} (hinv : LevelInv E o k d edge) (s : Fin n) :
    (d s = none ∧ ∃ a, a ∈ edge ∧ E a s) ↔ Shortest E o s (k + 1) := by
  obtain ⟨hd, he⟩ := hinv
  constructor
  · rintro ⟨hn, a, ha, hE⟩
    refine shortest_succ ((he a).1 ha) hE ?_
    intro i hi hsh
    have := (hd s i).2 ⟨i, hi, rfl, hsh⟩
    rw [hn] at this
    cases this
  · intro hsh
    obtain ⟨a, ha, hE⟩ := shortest_pred hsh
    refine ⟨?_, a, (he a).2 ha, hE⟩
    cases hds : d s with
    | none => rfl
    | some j =>
      obtain ⟨i, hi, _, hsi⟩ := (hd s j).1 hds
      have := shortest_unique hsi hsh
      omega

theorem levelInv_expand {n : Nat} (adj : Fin n → List (Fin n)) (adm : Fin n → Fin n → Bool)
    {o : Fin n} {k : Nat} {d : LabelMap n} {edge : List (Fin n)}
    (hinv : LevelInv (Admits adj adm) o k d edge) :
    LevelInv (Admits adj adm) o (k + 1) (bfsExpand adj adm ((k : Int) + 1) d edge).1
      (bfsExpand adj adm ((k : Int) + 1) d edge).2 := by
  obtain ⟨hg, hge⟩ := grows_expand adj adm ((k : Int) + 1) d edge
  have hnew := levelInv_new hinv
  obtain ⟨hd, he⟩ := hinv
  constructor
  · intro s j
    rw [hg s j]
    simp only at hnew ⊢
    constructor
    · rintro (h | ⟨hn, rfl, hex⟩)
      · obtain ⟨i, hi, hj, hsh⟩ := (hd s j).1 h
        exact ⟨i, by omega, hj, hsh⟩
      · exact ⟨k + 1, Nat.le_refl _, by push_cast; rfl, (hnew s).1 ⟨hn, hex⟩⟩
    · rintro ⟨i, hi, rfl, hsh⟩
      by_cases hik : i ≤ k
      · exact Or.inl ((hd s i).2 ⟨i, hik, rfl, hsh⟩)
      · have hi1 : i = k + 1 := by omega
        subst hi1
        obtain ⟨hn, hex⟩ := (hnew s).2 hsh
        exact Or.inr ⟨hn, by push_cast; rfl, hex⟩
  · intro s
    rw [hge s]
    simp only [List.not_mem_nil, false_or]
    exact hnew s

theorem bfsLoop_nil {n : Nat} (adj : Fin n → List (Fin n)) (adm : Fin n → Fin n → Bool)
    (fuel : Nat) (steps : Int) (d : LabelMap n) : bfsLoop adj adm fuel steps d [] = some d := by
  cases fuel <;> rfl

theorem levelInv_done {n : Nat} {E : Fin n → Fin n → Prop} {o : Fin n} {k : Nat}
    {d : LabelMap n} (hinv : LevelInv E o k d []) : Labelled E o d := by
  obtain ⟨hd, he⟩ := hinv
  intro s j
  rw [hd s j]
  constructor
  · rintro ⟨i, _, hj, hsh⟩
    exact ⟨i, hj, hsh⟩
  · rintro ⟨i, hj, hsh⟩
    refine ⟨i, ?_, hj, hsh⟩
    by_contra hik
    obtain ⟨t, ht⟩ := shortest_below i s hsh k (by omega)
    have := (he t).2 ht
    simp at this

theorem bfsLoop_spec {n : Nat} (adj : Fin n → List (Fin n)) (adm : Fin n → Fin n → Bool)
    (o : Fin n) (fuel : Nat) : ∀ (k : Nat) (d : LabelMap n) (edge : List (Fin n)),
    LevelInv (Admits adj adm) o k d edge → n ≤ fuel + k →
    ∃ d', bfsLoop adj adm fuel ((k : Int) + 1) d edge = some d' ∧
      Labelled (Admits adj adm) o d' := by
  induction fuel with
  | zero =>
    intro k d edge hinv hfuel
    cases edge with
    | nil => exact ⟨d, rfl, levelInv_done hinv⟩
    | cons x rest =>
      have := shortest_lt_card ((hinv.2 x).1 (List.mem_cons_self x rest))
      omega
  | succ fuel ih =>
    intro k d edge hinv hfuel
    cases edge with
    | nil => exact ⟨d, rfl, levelInv_done hinv⟩
    | cons x rest =>
      have h := ih (k + 1) _ _ (levelInv_expand adj adm hinv) (by omega)
      push_cast at h
      exact h

/-! ## The three loops are instances of the common shape -/

theorem linkEdge_eq {n : Nat} (g : Galaxy n) :
    linkEdge g = Admits g.Links (fun _ _ => true) := by
  funext a b
  simp [linkEdge, Admits]

theorem hyperEdge_eq {n : Nat} (g : Galaxy n) (player : PlayerInfo n) :
    hyperEdge g player = Admits g.Links (hyperAdm player) := by
  funext a b
  simp [hyperEdge, Admits, hyperAdm]

theorem jumpEdge_eq {n : Nat} (g : Galaxy n) (player : PlayerInfo n) :
    jumpEdge g player = Admits g.Neighbors (jumpAdm player) := by
  funext a b
  simp [jumpEdge, Admits, jumpAdm]

theorem InitVisit_eq {n : Nat} (steps : Int) (system : Fin n) :
    InitVisit steps = bfsVisit (fun _ _ => true) steps system := by
  funext st link
  simp [InitVisit, bfsVisit]

theorem InitHyperVisit_eq {n : Nat} (player : PlayerInfo n) (steps : Int) (system : Fin n) :
    InitHyperVisit player steps system = bfsVisit (hyperAdm player) steps system := by
  funext st link
  unfold InitHyperVisit bfsVisit hyperAdm
  cases player.HasSeen link <;> cases player.HasVisited link <;>
    cases player.HasVisited system <;> simp

theorem InitJumpVisit_eq {n : Nat} (player : PlayerInfo n) (steps : Int) (system : Fin n) :
    InitJumpVisit player steps = bfsVisit (jumpAdm player) steps system := by
  funext st link
  unfold InitJumpVisit bfsVisit jumpAdm
  cases player.HasSeen link <;> simp

theorem InitExpand_eq {n : Nat} (g : Galaxy n) (steps : Int) (d : LabelMap n)
    (edge : List (Fin n)) :
    InitExpand g steps d edge = bfsExpand g.Links (fun _ _ => true) steps d edge := by
  unfold InitExpand bfsExpand
  have h : (fun st system => (g.Links system).foldl (InitVisit steps) st)
      = fun st system => (g.Links system).foldl (bfsVisit (fun _ _ => true) steps system) st := by
    funext st system
    rw [InitVisit_eq steps system]
  rw [h]

theorem InitHyperExpand_eq {n : Nat} (g : Galaxy n) (player : PlayerInfo n) (steps : Int)
    (d : LabelMap n) (edge : List (Fin n)) :
    InitHyperExpand g player steps d edge = bfsExpand g.Links (hyperAdm player) steps d edge := by
  unfold InitHyperExpand bfsExpand
  have h : (fun st system => (g.Links system).foldl (InitHyperVisit player steps system) st)
      = fun st system => (g.Links system).foldl (bfsVisit (hyperAdm player) steps system) st := by
    funext st system
    rw [InitHyperVisit_eq player steps system]
  rw [h]

theorem InitJumpExpand_eq {n : Nat} (g : Galaxy n) (player : PlayerInfo n) (steps : Int)
    (d : LabelMap n) (edge : List (Fin n)) :
    InitJumpExpand g player steps d edge
      = bfsExpand g.Neighbors (jumpAdm player) steps d edge := by
  unfold InitJumpExpand bfsExpand
  have h : (fun st system => (g.Neighbors system).foldl (InitJumpVisit player steps) st)
      = fun st system => (g.Neighbors system).foldl (bfsVisit (jumpAdm player) steps system) st := by
    funext st system
    rw [InitJumpVisit_eq player steps system]
  rw [h]

theorem InitLoop_eq {n : Nat} (g : Galaxy n) (fuel : Nat) :
    ∀ (steps : Int) (d : LabelMap n) (edge : List (Fin n)),
    InitLoop g fuel steps d edge = bfsLoop g.Links (fun _ _ => true) fuel steps d edge := by
  induction fuel with
  | zero =>
    intro steps d edge
    cases edge <;> rfl
  | succ fuel ih =>
    intro steps d edge
    cases edge with
    | nil => rfl
    | cons x rest =>
      simp only [InitLoop, bfsLoop]
      rw [InitExpand_eq, ih]

theorem InitHyperLoop_eq {n : Nat} (g : Galaxy n) (player : PlayerInfo n) (fuel : Nat) :
    ∀ (steps : Int) (d : LabelMap n) (edge : List (Fin n)),
    InitHyperLoop g player fuel steps d edge
      = bfsLoop g.Links (hyperAdm player) fuel steps d edge := by
  induction fuel with
  | zero =>
    intro steps d edge
    cases edge <;> rfl
  | succ fuel ih =>
    intro steps d edge
    cases edge with
    | nil => rfl
    | cons x rest =>
      simp only [InitHyperLoop, bfsLoop]
      rw [InitHyperExpand_eq, ih]

theorem InitJumpLoop_eq {n : Nat} (g : Galaxy n) (player : PlayerInfo n) (fuel : Nat) :
    ∀ (steps : Int) (d : LabelMap n) (edge : List (Fin n)),
    InitJumpLoop g player fuel steps d edge
      = bfsLoop g.Neighbors (jumpAdm player) fuel steps d edge := by
  induction fuel with
  | zero =>
    intro steps d edge
    cases edge <;> rfl
  | succ fuel ih =>
    intro steps d edge
    cases edge with
    | nil => rfl
    | cons x rest =>
      simp only [InitJumpLoop, bfsLoop]
      rw [InitJumpExpand_eq, ih]

/-! ## The constructors label by shortest distance -/

theorem find_unique {n : Nat} (p : Fin n → Bool) (o : Fin n) (hp : ∀ s, p s = true ↔ s = o) :
    ∀ l : List (Fin n), o ∈ l → l.find? p = some o := by
  intro l
  induction l with
  | nil =>
    intro h
    simp at h
  | cons x l ih =>
    intro h
    by_cases hx : x = o
    · subst hx
      simp [List.find?, (hp x).2 rfl]
    · have hpx : p x = false := by
        cases hpx : p x with
        | false => rfl
        | true => exact absurd ((hp x).1 hpx) hx
      simp only [List.find?, hpx]
      rcases List.mem_cons.1 h with h | h
      · exact absurd h.symm hx
      · exact ih h

theorem begin_seed {n : Nat} (o : Fin n) :
    (LabelMap.empty.insert o 0).begin = some o := by
  unfold LabelMap.begin
  refine find_unique _ o ?_ _ (List.mem_finRange o)
  intro s
  by_cases hs : s = o <;> simp [LabelMap.insert, LabelMap.empty, hs]

theorem seed_loop {n : Nat} (adj : Fin n → List (Fin n)) (adm : Fin n → Fin n → Bool)
    (o : Fin n) (extra : Nat) :
    ∃ d, bfsLoop adj adm (n + extra) 1 (LabelMap.empty.insert o 0) [o] = some d ∧
      Labelled (Admits adj adm) o d := by
  have h := bfsLoop_spec adj adm o (n + extra) 0 _ _ (levelInv_seed _ o) (by omega)
  simpa using h

theorem fromCenter_spec {n : Nat} (g : Galaxy n) (o : Fin n) (extra : Nat) :
    ∃ m, fromCenter g (n + extra) o = some m ∧ m.hasJump = false ∧
      Labelled (linkEdge g) o m.distance := by
  obtain ⟨d, hd, hl⟩ := seed_loop g.Links (fun _ _ => true) o extra
  refine ⟨{ distance := d, hasJump := false }, ?_, rfl, ?_⟩
  · simp only [fromCenter, Init, label, fresh, begin_seed, InitLoop_eq, hd, Option.map_some',
      hasJumpDefault]
  · rw [linkEdge_eq]
    exact hl

theorem fromPlayer_hyper_spec {n : Nat} (g : Galaxy n) (o : Fin n) (seen visited : Fin n → Bool)
    (extra : Nat) :
    ∃ m, fromPlayer g (n + extra) (pilot o false true seen visited) = some m ∧
      m.hasJump = false ∧
      Labelled (hyperEdge g (pilot o false true seen visited)) o m.distance := by
  obtain ⟨d, hd, hl⟩ :=
    seed_loop g.Links (hyperAdm (pilot o false true seen visited)) o extra
  refine ⟨{ distance := d, hasJump := false }, ?_, rfl, ?_⟩
  · simp [fromPlayer, pilot, InitHyper, label, fresh, begin_seed, InitHyperLoop_eq,
      hasJumpDefault] at hd ⊢
    simp [hd]
  · rw [hyperEdge_eq]
    exact hl

theorem fromPlayer_jump_spec {n : Nat} (g : Galaxy n) (o : Fin n) (hyper : Bool)
    (seen visited : Fin n → Bool) (extra : Nat) :
    ∃ m, fromPlayer g (n + extra) (pilot o true hyper seen visited) = some m ∧
      m.hasJump = true ∧
      Labelled (jumpEdge g (pilot o true hyper seen visited)) o m.distance := by
  obtain ⟨d, hd, hl⟩ :=
    seed_loop g.Neighbors (jumpAdm (pilot o true hyper seen visited)) o extra
  refine ⟨{ distance := d, hasJump := true }, ?_, rfl, ?_⟩
  · simp [fromPlayer, pilot, InitJump, label, fresh, begin_seed, InitJumpLoop_eq] at hd ⊢
    simp [hd]
  · rw [jumpEdge_eq]
    exact hl

/-! ## Queries on a finished map -/

theorem labelled_some_nat {n : Nat} {E : Fin n → Fin n → Prop} {o : Fin n} {d : LabelMap n}
    (hl : Labelled E o d) (s : Fin n) (k : Nat) : d s = some (k : Int) ↔ Shortest E o s k := by
  rw [hl s k]
  constructor
  · rintro ⟨i, hi, hsh⟩
    have : k = i := by exact_mod_cast hi
    rw [this]
    exact hsh
  · intro h
    exact ⟨k, rfl, h⟩

theorem labelled_nonneg {n : Nat} {E : Fin n → Fin n → Prop} {o : Fin n} {d : LabelMap n}
    (hl : Labelled E o d) {s : Fin n} {j : Int} (h : d s = some j) : 0 ≤ j := by
  obtain ⟨i, hi, _⟩ := (hl s j).1 h
  omega

theorem labelled_none {n : Nat} {E : Fin n → Fin n → Prop} {o : Fin n} {d : LabelMap n}
    (hl : Labelled E o d) (s : Fin n) : d s = none ↔ ¬ Reachable E o s := by
  constructor
  · rintro hn ⟨k, hk⟩
    obtain ⟨i, _, hsh⟩ := exists_shortest k hk
    have := (hl s i).2 ⟨i, rfl, hsh⟩
    rw [hn] at this
    cases this
  · intro hr
    cases hds : d s with
    | none => rfl
    | some j =>
      obtain ⟨i, _, hsh⟩ := (hl s j).1 hds
      exact absurd ⟨i, hsh.1⟩ hr

theorem HasRoute_eq_false {n : Nat} (m : DistanceMap n) (s : Fin n) :
    m.HasRoute s = false ↔ m.distance s = none := by
  unfold HasRoute
  cases m.distance s <;> simp

theorem HasRoute_eq_true {n : Nat} (m : DistanceMap n) (s : Fin n) :
    m.HasRoute s = true ↔ ∃ j, m.distance s = some j := by
  unfold HasRoute
  cases m.distance s <;> simp

theorem Route_eq_none {n : Nat} (m : DistanceMap n) (g : Galaxy n) (s : Fin n) :
    m.Route g s = none ↔ m.distance s = none := by
  unfold Route
  cases m.distance s with
  | none => simp
  | some own =>
    simp only [reduceCtorEq, iff_false]
    cases (if m.hasJump = true then g.Neighbors s else g.Links s).find?
      (closer m.distance own) <;> simp

theorem Distance_eq_neg_one {n : Nat} (m : DistanceMap n)
    (hnn : ∀ s j, m.distance s = some j → 0 ≤ j) (s : Fin n) :
    m.Distance s = -1 ↔ m.distance s = none := by
  unfold Distance
  cases hds : m.distance s with
  | none => simp
  | some j =>
    have := hnn s j hds
    simp only [reduceCtorEq, iff_false]
    omega

theorem Distance_eq_nat {n : Nat} {E : Fin n → Fin n → Prop} {o : Fin n} (m : DistanceMap n)
    (hl : Labelled E o m.distance) (s : Fin n) (k : Nat) :
    m.Distance s = (k : Int) ↔ Shortest E o s k := by
  rw [← labelled_some_nat hl s k]
  unfold Distance
  cases hds : m.distance s with
  | none =>
    constructor
    · intro h
      have h' : (-1 : Int) = (k : Int) := h
      omega
    · intro h
      cases h
  | some j => simp

theorem Distance_unreachable {n : Nat} {E : Fin n → Fin n → Prop} {o : Fin n}
    (m : DistanceMap n) (hl : Labelled E o m.distance) (s : Fin n) :
    m.Distance s = -1 ↔ ¬ Reachable E o s := by
  rw [Distance_eq_neg_one m (fun _ _ h => labelled_nonneg hl h), labelled_none hl]

theorem HasRoute_unreachable {n : Nat} {E : Fin n → Fin n → Prop} {o : Fin n}
    (m : DistanceMap n) (hl : Labelled E o m.distance) (s : Fin n) :
    m.HasRoute s = false ↔ ¬ Reachable E o s := by
  rw [HasRoute_eq_false, labelled_none hl]

/-! ## Shortest-path labelling in the three modes -/

/-- C1. Unrestricted mode computes shortest link-path lengths: with fuel for at
least `n` frontier expansions the constructor returns a map in which
`Distance(s) = k` exactly when a shortest `Links()` path from the origin to `s`
has `k` hops, and `Distance(s) = -1`, equivalently `HasRoute(s) = false`, exactly
when there is no such path.  On the linear fixture A–B–C–D with origin A the
distances are 0, 1, 2, 3. -/
theorem C1_unrestricted_shortest_paths :
    (∀ (n : Nat) (g : Galaxy n) (o : Fin n) (extra : Nat),
      ∃ m, fromCenter g (n + extra) o = some m ∧ ∀ s,
        (∀ k : Nat, m.Distance s = (k : Int) ↔ Shortest (linkEdge g) o s k) ∧
        (m.Distance s = -1 ↔ ¬ Reachable (linkEdge g) o s) ∧
        (m.HasRoute s = false ↔ ¬ Reachable (linkEdge g) o s)) ∧
    (fromCenter lineGalaxy 4 0).map (fun m => [0, 1, 2, 3].map m.Distance)
      = some [0, 1, 2, 3] := by
  refine ⟨?_, by decide⟩
  intro n g o extra
  obtain ⟨m, hm, _, hl⟩ := fromCenter_spec g o extra
  exact ⟨m, hm, fun s => ⟨Distance_eq_nat m hl s, Distance_unreachable m hl s,
    HasRoute_unreachable m hl s⟩⟩

/-- C2. Hyperdrive mode computes shortest admissible-path lengths: for a player
whose ship is in `o` with a hyperdrive and no jump drive, `Distance(s) = k`
exactly when a shortest path whose hops `a → b` follow `Links()`, end in a seen
system and have a visited end has `k` hops, and `HasRoute(s)` is false exactly
when there is no such path.  On the fixture A–B, A–C, B–D with everything seen
and only A visited, B and C are at distance 1 and D has no route. -/
theorem C2_hyperdrive_shortest_paths :
    (∀ (n : Nat) (g : Galaxy n) (o : Fin n) (seen visited : Fin n → Bool) (extra : Nat),
      ∃ m, fromPlayer g (n + extra) (pilot o false true seen visited) = some m ∧ ∀ s,
        (∀ k : Nat, m.Distance s = (k : Int) ↔
          Shortest (hyperEdge g (pilot o false true seen visited)) o s k) ∧
        (m.HasRoute s = false ↔
          ¬ Reachable (hyperEdge g (pilot o false true seen visited)) o s)) ∧
    (fromPlayer forkGalaxy 4 (pilot 0 false true (allOf 4) (onlyOf [0]))).map
        (fun m => (m.Distance 1, m.Distance 2, m.HasRoute 3))
      = some (1, 1, false) := by
  refine ⟨?_, by decide⟩
  intro n g o seen visited extra
  obtain ⟨m, hm, _, hl⟩ := fromPlayer_hyper_spec g o seen visited extra
  exact ⟨m, hm, fun s => ⟨Distance_eq_nat m hl s, HasRoute_unreachable m hl s⟩⟩

theorem fromPlayer_jump_congr {n : Nat} (links links' nbrs : Fin n → List (Fin n))
    (o : Fin n) (hyper hyper' : Bool) (seen visited visited' : Fin n → Bool) (fuel : Nat) :
    fromPlayer { Links := links, Neighbors := nbrs } fuel (pilot o true hyper seen visited)
      = fromPlayer { Links := links', Neighbors := nbrs } fuel
          (pilot o true hyper' seen visited') := by
  simp only [fromPlayer, pilot, InitJump, if_true, InitJumpLoop_eq]
  rfl

/-- C3. Jump-drive mode labels through the neighbor relation exclusively: for a
player whose ship is in `o` with a jump drive, `Distance(s) = k` exactly when a
shortest path whose hops follow `Neighbors()` into seen systems has `k` hops,
and `Distance(s) = -1` exactly when there is none; replacing `Links()`,
`HasVisited` or the hyperdrive attribute leaves the constructed map unchanged;
and on a fixture with a direct link A–D but neighbor chain A–B–C–D the jump
distance of D is 3 while the unrestricted (link) distance is 1. -/
theorem C3_jump_uses_neighbors_only :
    (∀ (n : Nat) (g : Galaxy n) (o : Fin n) (hyper : Bool) (seen visited : Fin n → Bool)
        (extra : Nat),
      ∃ m, fromPlayer g (n + extra) (pilot o true hyper seen visited) = some m ∧ ∀ s,
        (∀ k : Nat, m.Distance s = (k : Int) ↔
          Shortest (jumpEdge g (pilot o true hyper seen visited)) o s k) ∧
        (m.Distance s = -1 ↔
          ¬ Reachable (jumpEdge g (pilot o true hyper seen visited)) o s)) ∧
    (∀ (n : Nat) (links links' nbrs : Fin n → List (Fin n)) (o : Fin n) (hyper hyper' : Bool)
        (seen visited visited' : Fin n → Bool) (fuel : Nat),
      fromPlayer { Links := links, Neighbors := nbrs } fuel (pilot o true hyper seen visited)
        = fromPlayer { Links := links', Neighbors := nbrs } fuel
            (pilot o true hyper' seen visited')) ∧
    ((fromPlayer shortcutGalaxy 4 (pilot 0 true false (allOf 4) (allOf 4))).map
        (fun m => m.Distance 3) = some 3 ∧
      (fromCenter shortcutGalaxy 4 0).map (fun m => m.Distance 3) = some 1) := by
  refine ⟨?_, ?_, by decide, by decide⟩
  · intro n g o hyper seen visited extra
    obtain ⟨m, hm, _, hl⟩ := fromPlayer_jump_spec g o hyper seen visited extra
    exact ⟨m, hm, fun s => ⟨Distance_eq_nat m hl s, Distance_unreachable m hl s⟩⟩
  · intro n links links' nbrs o hyper hyper' seen visited visited' fuel
    exact fromPlayer_jump_congr links links' nbrs o hyper hyper' seen visited visited' fuel

/-! ## Route -/

theorem labelled_origin {n : Nat} {E : Fin n → Fin n → Prop} {o : Fin n} {d : LabelMap n}
    (hl : Labelled E o d) : d o = some 0 :=
  (hl o 0).2 ⟨0, rfl, (shortest_zero E o o).2 rfl⟩

theorem labelled_pred {n : Nat} {E : Fin n → Fin n → Prop} {o : Fin n} {d : LabelMap n}
    (hl : Labelled E o d) {s : Fin n} {j : Int} (h : d s = some j) (hso : s ≠ o) :
    ∃ p, E p s ∧ d p = some (j - 1) := by
  obtain ⟨i, hi, hsh⟩ := (hl s j).1 h
  cases i with
  | zero => exact absurd ((shortest_zero E o s).1 hsh) hso
  | succ k =>
    obtain ⟨p, hp, hE⟩ := shortest_pred hsh
    refine ⟨p, hE, ?_⟩
    rw [hl p (j - 1)]
    exact ⟨k, by rw [hi]; push_cast; omega, hp⟩

theorem labelled_step {n : Nat} {E : Fin n → Fin n → Prop} {o : Fin n} {d : LabelMap n}
    (hl : Labelled E o d) {q s : Fin n} {v own : Int} (hq : d q = some v) (hs : d s = some own)
    (hE : E q s) : own ≤ v + 1 := by
  obtain ⟨i, hi, hqi⟩ := (hl q v).1 hq
  obtain ⟨k, hk, hsk⟩ := (hl s own).1 hs
  have := hsk.2 (i + 1) (HopPath.hop hqi.1 hE)
  omega

theorem closer_iff {n : Nat} (d : LabelMap n) (own : Int) (link : Fin n) :
    closer d own link = true ↔ ∃ v, d link = some v ∧ v < own := by
  unfold closer
  cases d link <;> simp

theorem route_scan {n : Nat} {E : Fin n → Fin n → Prop} {o : Fin n} {d : LabelMap n}
    (hl : Labelled E o d) {s : Fin n} {own : Int} (h : d s = some own) (hso : s ≠ o)
    (ls : List (Fin n)) (hback : ∀ p, E p s → p ∈ ls) :
    ∃ p v, ls.find? (closer d own) = some p ∧ p ∈ ls ∧ d p = some v ∧ v < own := by
  obtain ⟨p0, hE0, hp0⟩ := labelled_pred hl h hso
  cases hf : ls.find? (closer d own) with
  | none =>
    have hnone := List.find?_eq_none.1 hf p0 (hback p0 hE0)
    exact absurd ((closer_iff d own p0).2 ⟨own - 1, hp0, by omega⟩) hnone
  | some p =>
    obtain ⟨v, hv, hlt⟩ := (closer_iff d own p).1 (List.find?_some hf)
    exact ⟨p, v, rfl, List.mem_of_find?_eq_some hf, hv, hlt⟩

theorem Route_of_scan {n : Nat} (m : DistanceMap n) (g : Galaxy n) {s p : Fin n} {own : Int}
    (h : m.distance s = some own)
    (hf : (if m.hasJump then g.Neighbors s else g.Links s).find? (closer m.distance own)
      = some p) : m.Route g s = some p := by
  unfold Route
  rw [h]
  simp only
  rw [hf]

theorem Distance_of_some {n : Nat} (m : DistanceMap n) {s : Fin n} {j : Int}
    (h : m.distance s = some j) : m.Distance s = j := by
  unfold Distance
  rw [h]

theorem route_lower {n : Nat} {E : Fin n → Fin n → Prop} {o : Fin n} (m : DistanceMap n)
    (g : Galaxy n) (hl : Labelled E o m.distance) {s : Fin n} {own : Int}
    (h : m.distance s = some own) (hso : s ≠ o)
    (hback : ∀ p, E p s → p ∈ (if m.hasJump then g.Neighbors s else g.Links s)) :
    ∃ p v, m.Route g s = some p ∧ p ∈ (if m.hasJump then g.Neighbors s else g.Links s) ∧
      m.distance p = some v ∧ v < own := by
  obtain ⟨p, v, hf, hmem, hv, hlt⟩ := route_scan hl h hso _ hback
  exact ⟨p, v, Route_of_scan m g h hf, hmem, hv, hlt⟩

theorem route_exact {n : Nat} {E : Fin n → Fin n → Prop} {o : Fin n} (m : DistanceMap n)
    (g : Galaxy n) (hl : Labelled E o m.distance) {s : Fin n} {own : Int}
    (h : m.distance s = some own) (hso : s ≠ o)
    (hback : ∀ p, E p s → p ∈ (if m.hasJump then g.Neighbors s else g.Links s))
    (hfwd : ∀ q, q ∈ (if m.hasJump then g.Neighbors s else g.Links s) → E q s) :
    ∃ p, m.Route g s = some p ∧ p ∈ (if m.hasJump then g.Neighbors s else g.Links s) ∧
      E p s ∧ m.Distance p = m.Distance s - 1 := by
  obtain ⟨p, v, hr, hmem, hv, hlt⟩ := route_lower m g hl h hso hback
  have hle := labelled_step hl hv h (hfwd p hmem)
  refine ⟨p, hr, hmem, hfwd p hmem, ?_⟩
  rw [Distance_of_some m hv, Distance_of_some m h]
  omega

theorem pred_distance {n : Nat} {E : Fin n → Fin n → Prop} {o : Fin n} (m : DistanceMap n)
    (hl : Labelled E o m.distance) {s : Fin n} (h : m.HasRoute s = true) (hso : s ≠ o) :
    ∃ p, E p s ∧ m.Distance p = m.Distance s - 1 := by
  obtain ⟨own, hown⟩ := (HasRoute_eq_true m s).1 h
  obtain ⟨p, hE, hp⟩ := labelled_pred hl hown hso
  exact ⟨p, hE, by rw [Distance_of_some m hp, Distance_of_some m hown]⟩

/-- C4, as stated, fails on a one-way connection.  On the fixture A → B with
origin A, in unrestricted mode, in hyperdrive mode (everything seen and visited)
and in jump-drive mode alike, B is labelled and is not the origin, yet
`Route(B)` is B itself, not a system one step closer: the vector of B that
`Route` scans is empty. -/
theorem C4_route_misses_predecessor :
    (∃ m, fromCenter oneWayGalaxy 2 0 = some m ∧ m.HasRoute 1 = true ∧ (1 : Fin 2) ≠ 0 ∧
      ¬ ∃ p, m.Route oneWayGalaxy 1 = some p ∧ m.Distance p = m.Distance 1 - 1) ∧
    (∃ m, fromPlayer oneWayGalaxy 2 (pilot 0 false true (allOf 2) (allOf 2)) = some m ∧
      m.HasRoute 1 = true ∧ (1 : Fin 2) ≠ 0 ∧
      ¬ ∃ p, m.Route oneWayGalaxy 1 = some p ∧ m.Distance p = m.Distance 1 - 1) ∧
    (∃ m, fromPlayer oneWayGalaxy 2 (pilot 0 true false (allOf 2) (allOf 2)) = some m ∧
      m.HasRoute 1 = true ∧ (1 : Fin 2) ≠ 0 ∧
      ¬ ∃ p, m.Route oneWayGalaxy 1 = some p ∧ m.Distance p = m.Distance 1 - 1) := by
  refine ⟨?_, ?_, ?_⟩
  · have h : (fromCenter oneWayGalaxy 2 0).map
        (fun m => (m.HasRoute 1, m.Route oneWayGalaxy 1, m.Distance 1))
        = some (true, some 1, 1) := by decide
    obtain ⟨m, hm, hv⟩ := Option.map_eq_some'.1 h
    simp only [Prod.mk.injEq] at hv
    obtain ⟨h1, h2, h3⟩ := hv
    refine ⟨m, hm, h1, by decide, ?_⟩
    rintro ⟨p, hp, hd⟩
    rw [h2] at hp
    cases hp
    omega
  · have h : (fromPlayer oneWayGalaxy 2 (pilot 0 false true (allOf 2) (allOf 2))).map
        (fun m => (m.HasRoute 1, m.Route oneWayGalaxy 1, m.Distance 1))
        = some (true, some 1, 1) := by decide
    obtain ⟨m, hm, hv⟩ := Option.map_eq_some'.1 h
    simp only [Prod.mk.injEq] at hv
    obtain ⟨h1, h2, h3⟩ := hv
    refine ⟨m, hm, h1, by decide, ?_⟩
    rintro ⟨p, hp, hd⟩
    rw [h2] at hp
    cases hp
    omega
  · have h : (fromPlayer oneWayGalaxy 2 (pilot 0 true false (allOf 2) (allOf 2))).map
        (fun m => (m.HasRoute 1, m.Route oneWayGalaxy 1, m.Distance 1))
        = some (true, some 1, 1) := by decide
    obtain ⟨m, hm, hv⟩ := Option.map_eq_some'.1 h
    simp only [Prod.mk.injEq] at hv
    obtain ⟨h1, h2, h3⟩ := hv
    refine ⟨m, hm, h1, by decide, ?_⟩
    rintro ⟨p, hp, hd⟩
    rw [h2] at hp
    cases hp
    omega

/-- C4, amended.  In each of the three modes every labelled system `s` other
than the origin has a predecessor `p` with an admissible edge `p → s` and
`Distance(p) = Distance(s) - 1`.  In unrestricted and in jump-drive mode, when
the adjacency view of the mode is symmetric, `Route(s)` returns such a `p`, a
system of that view with an admissible edge to `s` and label `Distance(s) - 1`. -/
theorem C4_route_predecessor {n : Nat} (g : Galaxy n) (o s : Fin n) (hyper : Bool)
    (seen visited : Fin n → Bool) (extra : Nat) (hso : s ≠ o) :
    (∃ m, fromCenter g (n + extra) o = some m ∧ (m.HasRoute s = true →
      (∃ p, linkEdge g p s ∧ m.Distance p = m.Distance s - 1) ∧
      ((∀ a b, b ∈ g.Links a → a ∈ g.Links b) →
        ∃ p, m.Route g s = some p ∧ p ∈ g.Links s ∧ linkEdge g p s ∧
          m.Distance p = m.Distance s - 1))) ∧
    (∃ m, fromPlayer g (n + extra) (pilot o false true seen visited) = some m ∧
      (m.HasRoute s = true →
      ∃ p, hyperEdge g (pilot o false true seen visited) p s ∧
        m.Distance p = m.Distance s - 1)) ∧
    (∃ m, fromPlayer g (n + extra) (pilot o true hyper seen visited) = some m ∧
      (m.HasRoute s = true →
      (∃ p, jumpEdge g (pilot o true hyper seen visited) p s ∧
        m.Distance p = m.Distance s - 1) ∧
      ((∀ a b, b ∈ g.Neighbors a → a ∈ g.Neighbors b) →
        ∃ p, m.Route g s = some p ∧ p ∈ g.Neighbors s ∧
          jumpEdge g (pilot o true hyper seen visited) p s ∧
          m.Distance p = m.Distance s - 1))) := by
  refine ⟨?_, ?_, ?_⟩
  · obtain ⟨m, hm, hj, hl⟩ := fromCenter_spec g o extra
    refine ⟨m, hm, fun hr => ⟨pred_distance m hl hr hso, fun hsym => ?_⟩⟩
    obtain ⟨own, hown⟩ := (HasRoute_eq_true m s).1 hr
    have h := route_exact m g hl hown hso
    rw [hj] at h
    exact h (fun p hp => hsym p s hp) (fun q hq => hsym s q hq)
  · obtain ⟨m, hm, _, hl⟩ := fromPlayer_hyper_spec g o seen visited extra
    exact ⟨m, hm, fun hr => pred_distance m hl hr hso⟩
  · obtain ⟨m, hm, hj, hl⟩ := fromPlayer_jump_spec g o hyper seen visited extra
    refine ⟨m, hm, fun hr => ⟨pred_distance m hl hr hso, fun hsym => ?_⟩⟩
    obtain ⟨own, hown⟩ := (HasRoute_eq_true m s).1 hr
    obtain ⟨p0, hE0, _⟩ := labelled_pred hl hown hso
    have h := route_exact m g hl hown hso
    rw [hj] at h
    exact h (fun p hp => hsym p s hp.1) (fun q hq => ⟨hsym s q hq, hE0.2⟩)

/-- C4, amended, at the linear fixture A–B–C–D with origin A and `s = D`: D is
labelled, the links are symmetric, and `Route(D)` is a linked system one step
closer to A. -/
theorem C4_route_predecessor_witness :
    (3 : Fin 4) ≠ 0 ∧ ∃ m, fromCenter lineGalaxy 4 0 = some m ∧ m.HasRoute 3 = true ∧
      (∀ a b : Fin 4, b ∈ lineGalaxy.Links a → a ∈ lineGalaxy.Links b) ∧
      ∃ p, m.Route lineGalaxy 3 = some p ∧ p ∈ lineGalaxy.Links 3 ∧ linkEdge lineGalaxy p 3 ∧
        m.Distance p = m.Distance 3 - 1 := by
  obtain ⟨⟨m, hm, h⟩, _, _⟩ :=
    C4_route_predecessor lineGalaxy 0 3 false (allOf 4) (allOf 4) 0 (by decide)
  have hev : (fromCenter lineGalaxy 4 0).map (fun m => m.HasRoute 3) = some true := by decide
  have hm' : fromCenter lineGalaxy 4 0 = some m := hm
  rw [hm'] at hev
  have hr : m.HasRoute 3 = true := by simpa using hev
  exact ⟨by decide, m, hm', hr, by decide, (h hr).2 (by decide)⟩

/-! ## Every constructor call returns a map with non-negative labels -/

theorem labelled_seed {n : Nat} (o : Fin n) :
    Labelled noEdge o (LabelMap.empty.insert o 0) := by
  intro s j
  rw [(levelInv_seed noEdge o).1 s j]
  constructor
  · rintro ⟨i, _, hj, hsh⟩
    exact ⟨i, hj, hsh⟩
  · rintro ⟨i, hj, hsh⟩
    refine ⟨i, ?_, hj, hsh⟩
    cases i with
    | zero => exact Nat.le_refl 0
    | succ k =>
      obtain ⟨_, _, hE⟩ := hopPath_succ hsh.1
      exact absurd hE (fun h => h)

theorem fromPlayer_pilot_labelled {n : Nat} (g : Galaxy n) (o : Fin n) (jump hyper : Bool)
    (seen visited : Fin n → Bool) (extra : Nat) :
    ∃ (m : DistanceMap n) (E : Fin n → Fin n → Prop),
      fromPlayer g (n + extra) (pilot o jump hyper seen visited) = some m ∧
      Labelled E o m.distance := by
  cases jump with
  | true =>
    obtain ⟨m, hm, _, hl⟩ := fromPlayer_jump_spec g o hyper seen visited extra
    exact ⟨m, _, hm, hl⟩
  | false =>
    cases hyper with
    | true =>
      obtain ⟨m, hm, _, hl⟩ := fromPlayer_hyper_spec g o seen visited extra
      exact ⟨m, _, hm, hl⟩
    | false => exact ⟨label fresh o 0, noEdge, rfl, labelled_seed o⟩

theorem fromPlayer_total {n : Nat} (g : Galaxy n) (player : PlayerInfo n) (extra : Nat) :
    ∃ m, fromPlayer g (n + extra) player = some m ∧
      ∀ s j, m.distance s = some j → 0 ≤ j := by
  obtain ⟨ship, seen, visited⟩ := player
  cases ship with
  | none =>
    refine ⟨fresh, rfl, ?_⟩
    intro s j h
    cases h
  | some ship =>
    obtain ⟨system, jump, hyper⟩ := ship
    cases system with
    | none =>
      refine ⟨fresh, rfl, ?_⟩
      intro s j h
      cases h
    | some o =>
      obtain ⟨m, E, hm, hl⟩ := fromPlayer_pilot_labelled g o jump hyper seen visited extra
      exact ⟨m, hm, fun _ _ h => labelled_nonneg hl h⟩

theorem queries_agree {n : Nat} (m : DistanceMap n) (g : Galaxy n)
    (hnn : ∀ s j, m.distance s = some j → 0 ≤ j) (s : Fin n) :
    (m.HasRoute s = false ↔ m.Distance s = -1) ∧ (m.Distance s = -1 ↔ m.Route g s = none) := by
  rw [HasRoute_eq_false, Distance_eq_neg_one m hnn, Route_eq_none]
  exact ⟨Iff.rfl, Iff.rfl⟩

theorem origin_labels {n : Nat} {E : Fin n → Fin n → Prop} {o : Fin n} (m : DistanceMap n)
    (hl : Labelled E o m.distance) :
    m.Distance o = 0 ∧
      ∀ s, m.HasRoute s = true → 0 ≤ m.Distance s ∧ (m.Distance s = 0 → s = o) := by
  refine ⟨Distance_of_some m (labelled_origin hl), ?_⟩
  intro s hr
  obtain ⟨j, hj⟩ := (HasRoute_eq_true m s).1 hr
  rw [Distance_of_some m hj]
  refine ⟨labelled_nonneg hl hj, ?_⟩
  intro h0
  rw [h0] at hj
  exact (shortest_zero E o s).1 ((labelled_some_nat hl s 0).1 hj)

/-! ## Agreement of the queries, the origin, and the degenerate players -/

/-- C5. The three queries agree on unreachability: on every map returned by
either constructor (any origin, any player) and for every system `s`,
`HasRoute(s) = false` iff `Distance(s) = -1` iff `Route(s)` is null.  The
queries are total functions of the map that return no new map, so none of them
fails or changes the label set. -/
theorem C5_queries_agree_on_unreachable :
    (∀ (n : Nat) (g : Galaxy n) (o : Fin n) (extra : Nat),
      ∃ m, fromCenter g (n + extra) o = some m ∧ ∀ s,
        (m.HasRoute s = false ↔ m.Distance s = -1) ∧
        (m.Distance s = -1 ↔ m.Route g s = none)) ∧
    (∀ (n : Nat) (g : Galaxy n) (player : PlayerInfo n) (extra : Nat),
      ∃ m, fromPlayer g (n + extra) player = some m ∧ ∀ s,
        (m.HasRoute s = false ↔ m.Distance s = -1) ∧
        (m.Distance s = -1 ↔ m.Route g s = none)) := by
  constructor
  · intro n g o extra
    obtain ⟨m, hm, _, hl⟩ := fromCenter_spec g o extra
    exact ⟨m, hm, queries_agree m g (fun _ _ h => labelled_nonneg hl h)⟩
  · intro n g player extra
    obtain ⟨m, hm, hnn⟩ := fromPlayer_total g player extra
    exact ⟨m, hm, queries_agree m g hnn⟩

/-- C6. Labels are non-negative and the origin is labelled 0: for the map built
from a center `o`, and for the map built for a player whose ship is in `o` with
any combination of drives, `Distance(o) = 0`, and every labelled `s` has
`Distance(s) ≥ 0`, with `Distance(s) = 0` only for `s = o`. -/
theorem C6_origin_zero_labels_nonneg :
    (∀ (n : Nat) (g : Galaxy n) (o : Fin n) (extra : Nat),
      ∃ m, fromCenter g (n + extra) o = some m ∧ m.Distance o = 0 ∧
        ∀ s, m.HasRoute s = true → 0 ≤ m.Distance s ∧ (m.Distance s = 0 → s = o)) ∧
    (∀ (n : Nat) (g : Galaxy n) (o : Fin n) (jump hyper : Bool) (seen visited : Fin n → Bool)
        (extra : Nat),
      ∃ m, fromPlayer g (n + extra) (pilot o jump hyper seen visited) = some m ∧
        m.Distance o = 0 ∧
        ∀ s, m.HasRoute s = true → 0 ≤ m.Distance s ∧ (m.Distance s = 0 → s = o)) := by
  constructor
  · intro n g o extra
    obtain ⟨m, hm, _, hl⟩ := fromCenter_spec g o extra
    exact ⟨m, hm, origin_labels m hl⟩
  · intro n g o jump hyper seen visited extra
    obtain ⟨m, E, hm, hl⟩ := fromPlayer_pilot_labelled g o jump hyper seen visited extra
    exact ⟨m, hm, origin_labels m hl⟩

/-- C6 at the linear fixture A–B–C–D with origin A: D is labelled, its distance
is non-negative, and it is not 0. -/
theorem C6_origin_zero_labels_nonneg_witness :
    ∃ m, fromCenter lineGalaxy 4 0 = some m ∧ m.Distance 0 = 0 ∧ m.HasRoute 3 = true ∧
      0 ≤ m.Distance 3 ∧ (m.Distance 3 = 0 → (3 : Fin 4) = 0) := by
  obtain ⟨m, hm, h0, h⟩ := C6_origin_zero_labels_nonneg.1 4 lineGalaxy 0 0
  have hev : (fromCenter lineGalaxy 4 0).map (fun m => m.HasRoute 3) = some true := by decide
  have hm' : fromCenter lineGalaxy 4 0 = some m := hm
  rw [hm'] at hev
  have hr : m.HasRoute 3 = true := by simpa using hev
  exact ⟨m, hm', h0, hr, h 3 hr⟩

/-- C7. A player with no ship, or whose ship has no current system, yields an
empty map: whatever the galaxy, the fuel, the drives and the knowledge
predicates, the constructor returns a map with `HasRoute(s) = false`,
`Distance(s) = -1` and `Route(s)` null for every system `s`. -/
theorem C7_no_ship_or_system_empty_map :
    ∀ (n : Nat) (g : Galaxy n) (fuel : Nat) (jump hyper : Bool) (seen visited : Fin n → Bool),
      (∃ m, fromPlayer g fuel (shipless seen visited) = some m ∧
        ∀ s, m.HasRoute s = false ∧ m.Distance s = -1 ∧ m.Route g s = none) ∧
      (∃ m, fromPlayer g fuel (adrift jump hyper seen visited) = some m ∧
        ∀ s, m.HasRoute s = false ∧ m.Distance s = -1 ∧ m.Route g s = none) := by
  intro n g fuel jump hyper seen visited
  exact ⟨⟨fresh, rfl, fun _ => ⟨rfl, rfl, rfl⟩⟩, ⟨fresh, rfl, fun _ => ⟨rfl, rfl, rfl⟩⟩⟩

/-- C8. A player whose ship is in `o` with neither drive yields exactly one
labelled system: `HasRoute(s)` holds iff `s = o`, `Distance(o) = 0` and
`Route(o) = o`, whatever the galaxy, the fuel and the knowledge predicates. -/
theorem C8_no_drive_only_origin :
    ∀ (n : Nat) (g : Galaxy n) (fuel : Nat) (o : Fin n) (seen visited : Fin n → Bool),
      ∃ m, fromPlayer g fuel (pilot o false false seen visited) = some m ∧
        (∀ s, m.HasRoute s = true ↔ s = o) ∧ m.Distance o = 0 ∧ m.Route g o = some o := by
  intro n g fuel o seen visited
  refine ⟨label fresh o 0, rfl, ?_, ?_, ?_⟩
  · intro s
    by_cases hs : s = o <;>
      simp [HasRoute, label, fresh, LabelMap.insert, LabelMap.empty, hs]
  · simp [Distance, label, fresh, LabelMap.insert]
  · have hown : (label fresh o 0).distance o = some 0 := by
      simp [label, fresh, LabelMap.insert]
    have hfind : (if (label fresh o 0 : DistanceMap n).hasJump then g.Neighbors o
        else g.Links o).find? (closer (label fresh o 0).distance 0) = none := by
      rw [List.find?_eq_none]
      intro x _ hx
      obtain ⟨v, hv, hlt⟩ := (closer_iff _ _ _).1 hx
      have hv0 := labelled_nonneg (labelled_seed o) hv
      omega
    unfold Route
    rw [hown]
    simp only
    rw [hfind]

theorem Route_jump_view {n : Nat} (m : DistanceMap n) (hj : m.hasJump = true)
    (links links' nbrs : Fin n → List (Fin n)) (s : Fin n) :
    m.Route { Links := links, Neighbors := nbrs } s
      = m.Route { Links := links', Neighbors := nbrs } s := by
  unfold Route
  rw [hj]
  rfl

/-- C9. Jump drive takes precedence over hyperdrive: for a player whose ship has
both drives the constructor returns the very map it returns for the same player
with the jump drive only; with fuel for `n` expansions that map has `hasJump`
set, its labels are the shortest-path lengths over `Neighbors()` gated by
`HasSeen` alone, and `Route` on it does not depend on `Links()`; and replacing
`Links()` and `HasVisited`, the only inputs of the hyperdrive predicate that the
jump predicate does not read, leaves the result unchanged. -/
theorem C9_jump_drive_precedence :
    ∀ (n : Nat) (links nbrs : Fin n → List (Fin n)) (o : Fin n) (seen visited : Fin n → Bool),
      (∀ fuel, fromPlayer { Links := links, Neighbors := nbrs } fuel
          (pilot o true true seen visited)
        = fromPlayer { Links := links, Neighbors := nbrs } fuel
          (pilot o true false seen visited)) ∧
      (∀ extra, ∃ m, fromPlayer { Links := links, Neighbors := nbrs } (n + extra)
          (pilot o true true seen visited) = some m ∧ m.hasJump = true ∧
        (∀ (s : Fin n) (k : Nat), m.Distance s = (k : Int) ↔
          Shortest (jumpEdge { Links := links, Neighbors := nbrs }
            (pilot o true true seen visited)) o s k) ∧
        (∀ (links' : Fin n → List (Fin n)) (s : Fin n),
          m.Route { Links := links, Neighbors := nbrs } s
            = m.Route { Links := links', Neighbors := nbrs } s)) ∧
      (∀ (fuel : Nat) (links' : Fin n → List (Fin n)) (visited' : Fin n → Bool),
        fromPlayer { Links := links, Neighbors := nbrs } fuel (pilot o true true seen visited)
          = fromPlayer { Links := links', Neighbors := nbrs } fuel
              (pilot o true true seen visited')) := by
  intro n links nbrs o seen visited
  refine ⟨?_, ?_, ?_⟩
  · intro fuel
    exact fromPlayer_jump_congr links links nbrs o true false seen visited visited fuel
  · intro extra
    obtain ⟨m, hm, hj, hl⟩ :=
      fromPlayer_jump_spec { Links := links, Neighbors := nbrs } o true seen visited extra
    exact ⟨m, hm, hj, fun s k => Distance_eq_nat m hl s k,
      fun links' s => Route_jump_view m hj links links' nbrs s⟩
  · intro fuel links' visited'
    exact fromPlayer_jump_congr links links' nbrs o true true seen visited visited' fuel

/-- C10, as stated, fails at the origin: on the fixture A–B, A–C, B–D with a
hyperdrive-only player in A who has seen B, C, D but not A, the unseen system
A is labelled. -/
theorem C10_unseen_origin_is_labelled :
    ∃ m, fromPlayer forkGalaxy 4 (pilot 0 false true (onlyOf [1, 2, 3]) (onlyOf [0])) = some m ∧
      (onlyOf [1, 2, 3] : Fin 4 → Bool) 0 = false ∧ m.HasRoute 0 = true := by
  have h : (fromPlayer forkGalaxy 4 (pilot 0 false true (onlyOf [1, 2, 3]) (onlyOf [0]))).map
      (fun m => m.HasRoute 0) = some true := by decide
  obtain ⟨m, hm, hv⟩ := Option.map_eq_some'.1 h
  exact ⟨m, hm, by decide, hv⟩

/-- C10, amended.  In hyperdrive mode a system other than the player's current
system that the player has not seen is never labelled, whatever the links: the
constructor returns a map with `HasRoute(s) = false`. -/
theorem C10_unseen_not_labelled {n : Nat} (g : Galaxy n) (o s : Fin n)
    (seen visited : Fin n → Bool) (extra : Nat) (hso : s ≠ o) (hseen : seen s = false) :
    ∃ m, fromPlayer g (n + extra) (pilot o false true seen visited) = some m ∧
      m.HasRoute s = false := by
  obtain ⟨m, hm, _, hl⟩ := fromPlayer_hyper_spec g o seen visited extra
  refine ⟨m, hm, ?_⟩
  rw [HasRoute_eq_false]
  cases hds : m.distance s with
  | none => rfl
  | some j =>
    obtain ⟨p, hE, _⟩ := labelled_pred hl hds hso
    have hs : seen s = true := hE.2.1
    rw [hseen] at hs
    cases hs

/-- C10, amended, on the fixture A–B, A–C, B–D with the player in A, B visited
and D unseen: D, linked to the visited B, is not labelled. -/
theorem C10_unseen_not_labelled_witness :
    (3 : Fin 4) ≠ 0 ∧ (onlyOf [0, 1, 2] : Fin 4 → Bool) 3 = false ∧
      ∃ m, fromPlayer forkGalaxy 4 (pilot 0 false true (onlyOf [0, 1, 2]) (onlyOf [0, 1]))
          = some m ∧ m.HasRoute 3 = false :=
  ⟨by decide, by decide,
    C10_unseen_not_labelled forkGalaxy 0 3 (onlyOf [0, 1, 2]) (onlyOf [0, 1]) 0
      (by decide) (by decide)⟩

/-! ## Route at the origin -/

theorem route_origin {n : Nat} {E : Fin n → Fin n → Prop} {o : Fin n} (m : DistanceMap n)
    (g : Galaxy n) (hl : Labelled E o m.distance) : m.Route g o = some o := by
  have hown := labelled_origin hl
  have hfind : (if m.hasJump then g.Neighbors o else g.Links o).find?
      (closer m.distance 0) = none := by
    rw [List.find?_eq_none]
    intro x _ hx
    obtain ⟨v, hv, hlt⟩ := (closer_iff _ _ _).1 hx
    have hv0 := labelled_nonneg hl hv
    omega
  unfold Route
  rw [hown]
  simp only
  rw [hfind]

theorem route_self_origin {n : Nat} {E : Fin n → Fin n → Prop} {o : Fin n} (m : DistanceMap n)
    (g : Galaxy n) (hl : Labelled E o m.distance)
    (hback : ∀ p s, E p s → p ∈ (if m.hasJump then g.Neighbors s else g.Links s))
    (s : Fin n) (hr : m.HasRoute s = true) (hself : m.Route g s = some s) : s = o := by
  by_contra hso
  obtain ⟨own, hown⟩ := (HasRoute_eq_true m s).1 hr
  obtain ⟨p, v, hp, _, hv, hlt⟩ := route_lower m g hl hown hso (fun p hp => hback p s hp)
  rw [hself] at hp
  cases hp
  rw [hown] at hv
  cases hv
  omega

theorem fromPlayer_pilot_view {n : Nat} (g : Galaxy n) (o : Fin n) (jump hyper : Bool)
    (seen visited : Fin n → Bool) (extra : Nat) :
    ∃ (m : DistanceMap n) (E : Fin n → Fin n → Prop),
      fromPlayer g (n + extra) (pilot o jump hyper seen visited) = some m ∧
      m.hasJump = jump ∧ Labelled E o m.distance ∧
      ∀ p s, E p s → s ∈ (if jump then g.Neighbors p else g.Links p) := by
  cases jump with
  | true =>
    obtain ⟨m, hm, hj, hl⟩ := fromPlayer_jump_spec g o hyper seen visited extra
    exact ⟨m, _, hm, hj, hl, fun p s h => h.1⟩
  | false =>
    cases hyper with
    | true =>
      obtain ⟨m, hm, hj, hl⟩ := fromPlayer_hyper_spec g o seen visited extra
      exact ⟨m, _, hm, hj, hl, fun p s h => h.1⟩
    | false =>
      exact ⟨label fresh o 0, noEdge, rfl, rfl, labelled_seed o, fun p s h => absurd h (fun h => h)⟩

/-- C11, as stated, fails: in unrestricted mode on the one-way fixture A → B with
origin A, the labelled system B is not the origin and yet `Route(B)` is B. -/
theorem C11_route_self_off_origin :
    ∃ m, fromCenter oneWayGalaxy 2 0 = some m ∧ m.HasRoute 1 = true ∧
      m.Route oneWayGalaxy 1 = some 1 ∧ (1 : Fin 2) ≠ 0 := by
  have h : (fromCenter oneWayGalaxy 2 0).map (fun m => (m.HasRoute 1, m.Route oneWayGalaxy 1))
      = some (true, some 1) := by decide
  obtain ⟨m, hm, hv⟩ := Option.map_eq_some'.1 h
  simp only [Prod.mk.injEq] at hv
  exact ⟨m, hm, hv.1, hv.2, by decide⟩

/-- C11, amended.  In every mode that labels an origin `o` (unrestricted, and a
player in `o` with any drives) `Route(o) = o`, whatever the adjacency lists
hold; and when the adjacency view that `Route` scans is symmetric, a labelled
system `s` with `Route(s) = s` is the origin. -/
theorem C11_route_fixes_origin :
    (∀ (n : Nat) (g : Galaxy n) (o : Fin n) (extra : Nat),
      ∃ m, fromCenter g (n + extra) o = some m ∧ m.Route g o = some o ∧
        ((∀ a b, b ∈ g.Links a → a ∈ g.Links b) →
          ∀ s, m.HasRoute s = true → m.Route g s = some s → s = o)) ∧
    (∀ (n : Nat) (g : Galaxy n) (o : Fin n) (jump hyper : Bool) (seen visited : Fin n → Bool)
        (extra : Nat),
      ∃ m, fromPlayer g (n + extra) (pilot o jump hyper seen visited) = some m ∧
        m.Route g o = some o ∧
        ((∀ a b, b ∈ (if jump then g.Neighbors a else g.Links a) →
            a ∈ (if jump then g.Neighbors b else g.Links b)) →
          ∀ s, m.HasRoute s = true → m.Route g s = some s → s = o)) := by
  constructor
  · intro n g o extra
    obtain ⟨m, hm, hj, hl⟩ := fromCenter_spec g o extra
    refine ⟨m, hm, route_origin m g hl, fun hsym => ?_⟩
    refine route_self_origin m g hl ?_
    rw [hj]
    exact fun p s hp => hsym p s hp
  · intro n g o jump hyper seen visited extra
    obtain ⟨m, E, hm, hj, hl, hE⟩ := fromPlayer_pilot_view g o jump hyper seen visited extra
    refine ⟨m, hm, route_origin m g hl, fun hsym => ?_⟩
    refine route_self_origin m g hl ?_
    rw [hj]
    exact fun p s hp => hsym p s (hE p s hp)

/-- C11, amended, at two fixtures: on the symmetric linear fixture with origin
A only A is its own route; on the fixture with self-links and repeated entries
the origin is its own route. -/
theorem C11_route_fixes_origin_witness :
    (∃ m, fromCenter lineGalaxy 4 0 = some m ∧ m.Route lineGalaxy 0 = some 0 ∧
      ∀ s, m.HasRoute s = true → m.Route lineGalaxy s = some s → s = 0) ∧
    (fromCenter knotGalaxy 3 0).map (fun m => m.Route knotGalaxy 0) = some (some 0) := by
  refine ⟨?_, by decide⟩
  obtain ⟨m, hm, h0, h⟩ := C11_route_fixes_origin.1 4 lineGalaxy 0 0
  exact ⟨m, hm, h0, h (by decide)⟩

/-! ## Symmetry of reachability -/

theorem hopPath_prepend {n : Nat} {E : Fin n → Fin n → Prop} {a b s : Fin n} {k : Nat}
    (hE : E a b) (h : HopPath E b s k) : HopPath E a s (k + 1) := by
  induction h with
  | start => exact HopPath.hop HopPath.start hE
  | hop _ hE' ih => exact HopPath.hop ih hE'

theorem hopPath_reverse {n : Nat} {E : Fin n → Fin n → Prop} (hsym : ∀ a b, E a b → E b a)
    {o s : Fin n} {k : Nat} (h : HopPath E o s k) : HopPath E s o k := by
  induction h with
  | start => exact HopPath.start
  | hop _ hE ih => exact hopPath_prepend (hsym _ _ hE) ih

theorem reachable_symm {n : Nat} {E : Fin n → Fin n → Prop} (hsym : ∀ a b, E a b → E b a)
    (a b : Fin n) : Reachable E a b ↔ Reachable E b a :=
  ⟨fun ⟨k, h⟩ => ⟨k, hopPath_reverse hsym h⟩, fun ⟨k, h⟩ => ⟨k, hopPath_reverse hsym h⟩⟩

theorem HasRoute_reachable {n : Nat} {E : Fin n → Fin n → Prop} {o : Fin n}
    (m : DistanceMap n) (hl : Labelled E o m.distance) (s : Fin n) :
    m.HasRoute s = true ↔ Reachable E o s := by
  have h := HasRoute_unreachable m hl s
  cases hr : m.HasRoute s with
  | true =>
    rw [hr] at h
    simp only [true_iff]
    by_contra hc
    exact absurd (h.2 hc) (by simp)
  | false =>
    rw [hr] at h
    simp only [Bool.false_eq_true, false_iff]
    exact h.1 rfl

/-- C12, as stated, fails: on the one-way cycle A → B → C → A every system has a
route from every origin, so reachability is symmetric, while the link relation
is not. -/
theorem C12_symmetric_reach_one_way_links :
    (∀ a b : Fin 3, ∃ ma mb, fromCenter cycleGalaxy 3 a = some ma ∧
      fromCenter cycleGalaxy 3 b = some mb ∧ ma.HasRoute b = mb.HasRoute a) ∧
    ¬ (∀ a b : Fin 3, b ∈ cycleGalaxy.Links a ↔ a ∈ cycleGalaxy.Links b) := by
  refine ⟨?_, by decide⟩
  have h : ∀ a b : Fin 3,
      (fromCenter cycleGalaxy 3 a).map (fun m => m.HasRoute b) = some true := by decide
  intro a b
  obtain ⟨ma, hma, ha⟩ := Option.map_eq_some'.1 (h a b)
  obtain ⟨mb, hmb, hb⟩ := Option.map_eq_some'.1 (h b a)
  exact ⟨ma, mb, hma, hmb, by rw [ha, hb]⟩

/-- C12, amended.  In unrestricted mode, when the link relation is symmetric,
reachability is symmetric: `HasRoute(b)` in the map built from origin `a`
equals `HasRoute(a)` in the map built from origin `b`. -/
theorem C12_symmetric_links_symmetric_reach {n : Nat} (g : Galaxy n) (a b : Fin n)
    (extra : Nat) (hsym : ∀ x y, y ∈ g.Links x ↔ x ∈ g.Links y) :
    ∃ ma mb, fromCenter g (n + extra) a = some ma ∧ fromCenter g (n + extra) b = some mb ∧
      ma.HasRoute b = mb.HasRoute a := by
  obtain ⟨ma, hma, _, hla⟩ := fromCenter_spec g a extra
  obtain ⟨mb, hmb, _, hlb⟩ := fromCenter_spec g b extra
  refine ⟨ma, mb, hma, hmb, ?_⟩
  have hiff : ma.HasRoute b = true ↔ mb.HasRoute a = true := by
    rw [HasRoute_reachable ma hla, HasRoute_reachable mb hlb]
    exact reachable_symm (fun x y h => (hsym x y).1 h) a b
  cases h1 : ma.HasRoute b <;> cases h2 : mb.HasRoute a <;> simp_all

/-- C12, amended, on the symmetric linear fixture: A has a route in the map
built from D exactly as D has one in the map built from A. -/
theorem C12_symmetric_links_symmetric_reach_witness :
    (∀ x y : Fin 4, y ∈ lineGalaxy.Links x ↔ x ∈ lineGalaxy.Links y) ∧
    ∃ ma mb, fromCenter lineGalaxy 4 0 = some ma ∧ fromCenter lineGalaxy 4 3 = some mb ∧
      ma.HasRoute 3 = mb.HasRoute 0 :=
  ⟨by decide, C12_symmetric_links_symmetric_reach lineGalaxy 0 3 0 (by decide)⟩

/-! ## Following Route back to the origin -/

theorem label_of_distance {n : Nat} {E : Fin n → Fin n → Prop} {o : Fin n} (m : DistanceMap n)
    (hl : Labelled E o m.distance) {s : Fin n} {k : Nat} (h : m.Distance s = (k : Int)) :
    m.distance s = some (k : Int) :=
  (labelled_some_nat hl s k).2 ((Distance_eq_nat m hl s k).1 h)

theorem route_step {n : Nat} {o : Fin n} (m : DistanceMap n) (g : Galaxy n)
    (hl : Labelled (linkEdge g) o m.distance) (hj : m.hasJump = false)
    (hsym : ∀ a b, b ∈ g.Links a ↔ a ∈ g.Links b) {x : Fin n} {v : Int}
    (hx : m.distance x = some v) (hxo : x ≠ o) :
    ∃ y, m.Route g x = some y ∧ y ∈ g.Links x ∧ x ∈ g.Links y ∧ m.distance y = some (v - 1) := by
  have h := route_exact m g hl hx hxo
  rw [hj] at h
  obtain ⟨y, hy, hmem, hE, hd⟩ :=
    h (fun p hp => (hsym p x).1 hp) (fun q hq => (hsym x q).1 hq)
  refine ⟨y, hy, hmem, hE, ?_⟩
  rw [Distance_of_some m hx] at hd
  obtain ⟨i, hi, hsh⟩ := (hl x v).1 hx
  cases i with
  | zero => exact absurd ((shortest_zero _ o x).1 hsh) hxo
  | succ j =>
    have hd' : m.Distance y = ((j : Nat) : Int) := by rw [hd, hi]; push_cast; omega
    have := label_of_distance m hl hd'
    rw [this, hi]
    congr 1
    push_cast
    omega

theorem routeIter_label {n : Nat} {o : Fin n} (m : DistanceMap n) (g : Galaxy n)
    (hl : Labelled (linkEdge g) o m.distance) (hj : m.hasJump = false)
    (hsym : ∀ a b, b ∈ g.Links a ↔ a ∈ g.Links b) (s : Fin n) (k : Nat)
    (hk : m.distance s = some (k : Int)) :
    ∀ i, i ≤ k → ∃ x, routeIter m g i s = some x ∧ m.distance x = some ((k : Int) - i) := by
  intro i
  induction i with
  | zero =>
    intro _
    exact ⟨s, rfl, by rw [hk]; simp⟩
  | succ i ih =>
    intro hi
    obtain ⟨x, hx, hdx⟩ := ih (by omega)
    have hxo : x ≠ o := by
      intro hxo
      rw [hxo, labelled_origin hl] at hdx
      have := Option.some.inj hdx
      omega
    obtain ⟨y, hy, _, _, hdy⟩ := route_step m g hl hj hsym hdx hxo
    refine ⟨y, ?_, ?_⟩
    · simp [routeIter, hx, hy]
    · rw [hdy]
      congr 1
      push_cast
      omega

/-- C13. Following `Route` leads back to the origin in exactly `Distance` steps:
in unrestricted mode with a symmetric link relation, for a system `s` with
`Distance(s) = k`, the `i`-th element of `s, Route(s), Route(Route(s)), ...` is a
labelled system at distance `k - i` for every `i ≤ k`, every element before the
`k`-th is linked with its successor, and the `k`-th element is the origin.  On
the linear fixture A–B–C–D with origin A the routes of D, C, B, A are C, B, A,
A. -/
theorem C13_route_leads_to_origin :
    (∀ (n : Nat) (g : Galaxy n) (o s : Fin n) (extra : Nat),
      (∀ a b, b ∈ g.Links a ↔ a ∈ g.Links b) →
      ∃ m, fromCenter g (n + extra) o = some m ∧ ∀ k : Nat, m.Distance s = (k : Int) →
        (∀ i, i ≤ k → ∃ x, routeIter m g i s = some x ∧ m.HasRoute x = true ∧
          m.Distance x = (k : Int) - (i : Int)) ∧
        (∀ i, i < k → ∃ x y, routeIter m g i s = some x ∧ routeIter m g (i + 1) s = some y ∧
          y ∈ g.Links x ∧ x ∈ g.Links y) ∧
        routeIter m g k s = some o) ∧
    (fromCenter lineGalaxy 4 0).map (fun m => [3, 2, 1, 0].map (m.Route lineGalaxy))
      = some [some 2, some 1, some 0, some 0] := by
  refine ⟨?_, by decide⟩
  intro n g o s extra hsym
  obtain ⟨m, hm, hj, hl⟩ := fromCenter_spec g o extra
  refine ⟨m, hm, fun k hk => ?_⟩
  have hds := label_of_distance m hl hk
  have hiter := routeIter_label m g hl hj hsym s k hds
  refine ⟨?_, ?_, ?_⟩
  · intro i hi
    obtain ⟨x, hx, hdx⟩ := hiter i hi
    exact ⟨x, hx, (HasRoute_eq_true m x).2 ⟨_, hdx⟩, Distance_of_some m hdx⟩
  · intro i hi
    obtain ⟨x, hx, hdx⟩ := hiter i (by omega)
    have hxo : x ≠ o := by
      intro hxo
      rw [hxo, labelled_origin hl] at hdx
      have := Option.some.inj hdx
      omega
    obtain ⟨y, hy, hyx, hxy, _⟩ := route_step m g hl hj hsym hdx hxo
    refine ⟨x, y, hx, ?_, hyx, hxy⟩
    simp [routeIter, hx, hy]
  · obtain ⟨x, hx, hdx⟩ := hiter k (Nat.le_refl k)
    have h0 : m.distance x = some ((0 : Nat) : Int) := by
      rw [hdx]
      congr 1
      push_cast
      omega
    have hxo := (shortest_zero _ o x).1 ((labelled_some_nat hl x 0).1 h0)
    rw [← hxo]
    exact hx

/-- C13 on the symmetric linear fixture A–B–C–D with origin A and `s = D`:
three applications of `Route` end in A. -/
theorem C13_route_leads_to_origin_witness :
    (∀ a b : Fin 4, b ∈ lineGalaxy.Links a ↔ a ∈ lineGalaxy.Links b) ∧
    ∃ m, fromCenter lineGalaxy 4 0 = some m ∧ m.Distance 3 = 3 ∧
      routeIter m lineGalaxy 3 3 = some 0 := by
  obtain ⟨m, hm, h⟩ := C13_route_leads_to_origin.1 4 lineGalaxy 0 3 0 (by decide)
  have hev : (fromCenter lineGalaxy 4 0).map (fun m => m.Distance 3) = some 3 := by decide
  have hm' : fromCenter lineGalaxy 4 0 = some m := hm
  rw [hm'] at hev
  have hd : m.Distance 3 = ((3 : Nat) : Int) := by simpa using hev
  exact ⟨by decide, m, hm', hd, (h 3 hd).2.2⟩

/-! ## Route in hyperdrive mode -/

/-- C14. The code at the failing input: on the symmetric detour fixture with the
hyperdrive-only player in O, everything seen and O, P1, P2 visited, S is
labelled 3 and is not the origin, P2 is the linked system with label 2 and an
admissible edge P2 → S that the claim asks for, and yet `Route(S)` is Q, the
first entry of `Links(S)`, whose label is 1 and whose edge Q → S is not
admissible (neither Q nor S is visited). -/
theorem C14_route_skips_levels :
    ∃ m, fromPlayer detourGalaxy 5 (pilot 0 false true (allOf 5) (onlyOf [0, 2, 3])) = some m ∧
      (∀ a b : Fin 5, b ∈ detourGalaxy.Links a ↔ a ∈ detourGalaxy.Links b) ∧
      m.HasRoute 4 = true ∧ (4 : Fin 5) ≠ 0 ∧ m.Distance 4 = 3 ∧
      (3 ∈ detourGalaxy.Links 4 ∧ m.Distance 3 = m.Distance 4 - 1 ∧
        hyperEdge detourGalaxy (pilot 0 false true (allOf 5) (onlyOf [0, 2, 3])) 3 4) ∧
      m.Route detourGalaxy 4 = some 1 ∧ m.Distance 1 = 1 ∧
      m.Distance 1 ≠ m.Distance 4 - 1 ∧
      ¬ hyperEdge detourGalaxy (pilot 0 false true (allOf 5) (onlyOf [0, 2, 3])) 1 4 := by
  have h : (fromPlayer detourGalaxy 5 (pilot 0 false true (allOf 5) (onlyOf [0, 2, 3]))).map
      (fun m => (m.HasRoute 4, m.Route detourGalaxy 4, m.Distance 4, m.Distance 1,
        m.Distance 3))
      = some (true, some 1, 3, 1, 2) := by decide
  obtain ⟨m, hm, hv⟩ := Option.map_eq_some'.1 h
  simp only [Prod.mk.injEq] at hv
  obtain ⟨h1, h2, h3, h4, h5⟩ := hv
  refine ⟨m, hm, by decide, h1, by decide, h3, ⟨by decide, by omega, ?_⟩, h2, h4, by omega, ?_⟩
  · unfold hyperEdge
    decide
  · unfold hyperEdge
    decide

/-! ## Route returns the first lower-labelled adjacent system -/

theorem closer_iff_lower {n : Nat} (m : DistanceMap n) {s : Fin n} {own : Int}
    (hown : m.distance s = some own) (x : Fin n) :
    closer m.distance own x = true ↔ (m.HasRoute x = true ∧ m.Distance x < m.Distance s) := by
  rw [closer_iff, HasRoute_eq_true, Distance_of_some m hown]
  constructor
  · rintro ⟨v, hv, hlt⟩
    exact ⟨⟨v, hv⟩, by rw [Distance_of_some m hv]; exact hlt⟩
  · rintro ⟨⟨v, hv⟩, hlt⟩
    rw [Distance_of_some m hv] at hlt
    exact ⟨v, hv, hlt⟩

theorem not_lower_iff {n : Nat} (m : DistanceMap n) (s x : Fin n) :
    ¬ (m.HasRoute x = true ∧ m.Distance x < m.Distance s) ↔
      (m.HasRoute x = false ∨ m.Distance s ≤ m.Distance x) := by
  cases m.HasRoute x <;> simp

/-- C15. `Route` returns the first strictly-lower-labelled adjacent system.  For
a labelled system `s` of any map, with `adj` the `Neighbors(s)` vector when
`hasJump` is set and the `Links(s)` vector otherwise: if `adj` holds a labelled
system with a label below `Distance(s)`, `Route(s)` is the first such entry,
every entry before it being unlabelled or labelled at least `Distance(s)`;
otherwise `Route(s) = s`; so the result is always labelled, and is `s` or has a
label below `Distance(s)`.  The flag `hasJump` is set exactly by construction in
jump-drive mode. -/
theorem C15_route_first_lower {n : Nat} (g : Galaxy n) (m : DistanceMap n) (s : Fin n)
    (hr : m.HasRoute s = true) :
    ((∃ x, x ∈ (if m.hasJump then g.Neighbors s else g.Links s) ∧ m.HasRoute x = true ∧
        m.Distance x < m.Distance s) →
      ∃ pre p post, (if m.hasJump then g.Neighbors s else g.Links s) = pre ++ p :: post ∧
        m.Route g s = some p ∧ m.HasRoute p = true ∧ m.Distance p < m.Distance s ∧
        ∀ x, x ∈ pre → (m.HasRoute x = false ∨ m.Distance s ≤ m.Distance x)) ∧
    ((¬ ∃ x, x ∈ (if m.hasJump then g.Neighbors s else g.Links s) ∧ m.HasRoute x = true ∧
        m.Distance x < m.Distance s) → m.Route g s = some s) ∧
    (∀ r, m.Route g s = some r →
      m.HasRoute r = true ∧ (m.Distance r < m.Distance s ∨ r = s)) ∧
    (∀ (o : Fin n) (extra : Nat),
      ∃ m', fromCenter g (n + extra) o = some m' ∧ m'.hasJump = false) ∧
    (∀ (o : Fin n) (jump hyper : Bool) (seen visited : Fin n → Bool) (extra : Nat),
      ∃ m', fromPlayer g (n + extra) (pilot o jump hyper seen visited) = some m' ∧
        m'.hasJump = jump) := by
  obtain ⟨own, hown⟩ := (HasRoute_eq_true m s).1 hr
  have hroute : m.Route g s =
      match (if m.hasJump then g.Neighbors s else g.Links s).find? (closer m.distance own) with
      | some link => some link
      | none => some s := by
    unfold Route
    rw [hown]
  refine ⟨?_, ?_, ?_, ?_, ?_⟩
  · rintro ⟨x, hx, hlow⟩
    cases hf : (if m.hasJump then g.Neighbors s else g.Links s).find? (closer m.distance own) with
    | none =>
      have := List.find?_eq_none.1 hf x hx
      exact absurd ((closer_iff_lower m hown x).2 hlow) this
    | some p =>
      obtain ⟨hp, pre, post, hsplit, hpre⟩ := List.find?_eq_some.1 hf
      have hlp := (closer_iff_lower m hown p).1 hp
      refine ⟨pre, p, post, hsplit, ?_, hlp.1, hlp.2, ?_⟩
      · rw [hroute, hf]
      · intro y hy
        have hy' := hpre y hy
        rw [← not_lower_iff]
        intro hc
        have := (closer_iff_lower m hown y).2 hc
        rw [this] at hy'
        simp at hy'
  · intro hno
    have hf : (if m.hasJump then g.Neighbors s else g.Links s).find? (closer m.distance own)
        = none := by
      rw [List.find?_eq_none]
      intro x hx hc
      exact hno ⟨x, hx, (closer_iff_lower m hown x).1 hc⟩
    rw [hroute, hf]
  · intro r hrr
    rw [hroute] at hrr
    cases hf : (if m.hasJump then g.Neighbors s else g.Links s).find? (closer m.distance own) with
    | none =>
      rw [hf] at hrr
      cases hrr
      exact ⟨hr, Or.inr rfl⟩
    | some p =>
      rw [hf] at hrr
      cases hrr
      have hlp := (closer_iff_lower m hown _).1 (List.find?_some hf)
      exact ⟨hlp.1, Or.inl hlp.2⟩
  · intro o extra
    obtain ⟨m', hm', hj, _⟩ := fromCenter_spec g o extra
    exact ⟨m', hm', hj⟩
  · intro o jump hyper seen visited extra
    obtain ⟨m', _, hm', hj, _⟩ := fromPlayer_pilot_view g o jump hyper seen visited extra
    exact ⟨m', hm', hj⟩

/-- C15 on the linear fixture A–B–C–D with origin A and `s = C`: C is labelled,
`Links(C)` enumerates B first, and `Route(C)` is B. -/
theorem C15_route_first_lower_witness :
    ∃ m, fromCenter lineGalaxy 4 0 = some m ∧ m.HasRoute 2 = true ∧
      ∀ r, m.Route lineGalaxy 2 = some r →
        m.HasRoute r = true ∧ (m.Distance r < m.Distance 2 ∨ r = 2) := by
  have hev : (fromCenter lineGalaxy 4 0).map (fun m => m.HasRoute 2) = some true := by decide
  obtain ⟨m, hm, hr⟩ := Option.map_eq_some'.1 hev
  exact ⟨m, hm, hr, (C15_route_first_lower lineGalaxy m 2 hr).2.2.1⟩

/-! ## Label consistency -/

theorem label_consistent {n : Nat} {E : Fin n → Fin n → Prop} {o : Fin n} (m : DistanceMap n)
    (hl : Labelled E o m.distance) {s : Fin n} (hr : m.HasRoute s = true) (hso : s ≠ o) :
    (∃ p, E p s ∧ m.HasRoute p = true ∧ m.Distance p = m.Distance s - 1) ∧
    (∀ p, E p s → m.HasRoute p = true → m.Distance s - 1 ≤ m.Distance p) := by
  obtain ⟨own, hown⟩ := (HasRoute_eq_true m s).1 hr
  constructor
  · obtain ⟨p, hE, hp⟩ := labelled_pred hl hown hso
    exact ⟨p, hE, (HasRoute_eq_true m p).2 ⟨_, hp⟩,
      by rw [Distance_of_some m hp, Distance_of_some m hown]⟩
  · intro p hE hrp
    obtain ⟨v, hv⟩ := (HasRoute_eq_true m p).1 hrp
    have := labelled_step hl hv hown hE
    rw [Distance_of_some m hv, Distance_of_some m hown]
    omega

/-- C16. Label consistency: in each of the three modes, for every labelled
system `s` other than the origin, some labelled system `p` with an admissible
edge `p → s` has `Distance(p) = Distance(s) - 1`, and no labelled system with
an admissible edge to `s` has a smaller label; that is, `Distance(s)` is one
plus the least label of the labelled admissible predecessors of `s`. -/
theorem C16_label_consistency {n : Nat} (g : Galaxy n) (o s : Fin n) (hyper : Bool)
    (seen visited : Fin n → Bool) (extra : Nat) (hso : s ≠ o) :
    (∃ m, fromCenter g (n + extra) o = some m ∧ (m.HasRoute s = true →
      (∃ p, linkEdge g p s ∧ m.HasRoute p = true ∧ m.Distance p = m.Distance s - 1) ∧
      (∀ p, linkEdge g p s → m.HasRoute p = true → m.Distance s - 1 ≤ m.Distance p))) ∧
    (∃ m, fromPlayer g (n + extra) (pilot o false true seen visited) = some m ∧
      (m.HasRoute s = true →
      (∃ p, hyperEdge g (pilot o false true seen visited) p s ∧ m.HasRoute p = true ∧
        m.Distance p = m.Distance s - 1) ∧
      (∀ p, hyperEdge g (pilot o false true seen visited) p s → m.HasRoute p = true →
        m.Distance s - 1 ≤ m.Distance p))) ∧
    (∃ m, fromPlayer g (n + extra) (pilot o true hyper seen visited) = some m ∧
      (m.HasRoute s = true →
      (∃ p, jumpEdge g (pilot o true hyper seen visited) p s ∧ m.HasRoute p = true ∧
        m.Distance p = m.Distance s - 1) ∧
      (∀ p, jumpEdge g (pilot o true hyper seen visited) p s → m.HasRoute p = true →
        m.Distance s - 1 ≤ m.Distance p))) := by
  refine ⟨?_, ?_, ?_⟩
  · obtain ⟨m, hm, _, hl⟩ := fromCenter_spec g o extra
    exact ⟨m, hm, fun hr => label_consistent m hl hr hso⟩
  · obtain ⟨m, hm, _, hl⟩ := fromPlayer_hyper_spec g o seen visited extra
    exact ⟨m, hm, fun hr => label_consistent m hl hr hso⟩
  · obtain ⟨m, hm, _, hl⟩ := fromPlayer_jump_spec g o hyper seen visited extra
    exact ⟨m, hm, fun hr => label_consistent m hl hr hso⟩

/-- C16 on the symmetric detour fixture in hyperdrive mode with O, P1, P2
visited and `s = S`: S is labelled, has an admissible predecessor one label
below, and no labelled admissible predecessor lies lower. -/
theorem C16_label_consistency_witness :
    (4 : Fin 5) ≠ 0 ∧
    ∃ m, fromPlayer detourGalaxy 5 (pilot 0 false true (allOf 5) (onlyOf [0, 2, 3])) = some m ∧
      m.HasRoute 4 = true ∧
      (∃ p, hyperEdge detourGalaxy (pilot 0 false true (allOf 5) (onlyOf [0, 2, 3])) p 4 ∧
        m.HasRoute p = true ∧ m.Distance p = m.Distance 4 - 1) ∧
      (∀ p, hyperEdge detourGalaxy (pilot 0 false true (allOf 5) (onlyOf [0, 2, 3])) p 4 →
        m.HasRoute p = true → m.Distance 4 - 1 ≤ m.Distance p) := by
  obtain ⟨_, ⟨m, hm, h⟩, _⟩ :=
    C16_label_consistency detourGalaxy 0 4 false (allOf 5) (onlyOf [0, 2, 3]) 0 (by decide)
  have hev : (fromPlayer detourGalaxy 5 (pilot 0 false true (allOf 5) (onlyOf [0, 2, 3]))).map
      (fun m => m.HasRoute 4) = some true := by decide
  have hm' : fromPlayer detourGalaxy 5 (pilot 0 false true (allOf 5) (onlyOf [0, 2, 3]))
      = some m := hm
  rw [hm'] at hev
  have hr : m.HasRoute 4 = true := by simpa using hev
  exact ⟨by decide, m, hm', hr, h hr⟩

/-! ## Monotonicity in the edge relation -/

theorem hopPath_mono {n : Nat} {E E' : Fin n → Fin n → Prop} (hsub : ∀ a b, E a b → E' a b)
    {o s : Fin n} {k : Nat} (h : HopPath E o s k) : HopPath E' o s k := by
  induction h with
  | start => exact HopPath.start
  | hop _ hE ih => exact HopPath.hop ih (hsub _ _ hE)

theorem labelled_mono {n : Nat} {E E' : Fin n → Fin n → Prop} {o : Fin n}
    (m m' : DistanceMap n) (hl : Labelled E o m.distance) (hl' : Labelled E' o m'.distance)
    (hsub : ∀ a b, E a b → E' a b) (s : Fin n) (hr : m.HasRoute s = true) :
    m'.HasRoute s = true ∧ m'.Distance s ≤ m.Distance s := by
  obtain ⟨j, hj⟩ := (HasRoute_eq_true m s).1 hr
  obtain ⟨i, hi, hsh⟩ := (hl s j).1 hj
  obtain ⟨i', hi', hsh'⟩ := exists_shortest i (hopPath_mono hsub hsh.1)
  have hj' : m'.distance s = some (i' : Int) := (hl' s i').2 ⟨i', rfl, hsh'⟩
  refine ⟨(HasRoute_eq_true m' s).2 ⟨_, hj'⟩, ?_⟩
  rw [Distance_of_some m' hj', Distance_of_some m hj, hi]
  exact_mod_cast hi'

/-- C17. Visiting more systems never loses reachability in hyperdrive mode: for
a fixed galaxy, origin and `HasSeen`, if every system visited under `visited` is
visited under `visited'`, every system labelled by the map built with `visited`
is labelled by the map built with `visited'`, at a distance that is not larger.
On the fixture A–B, A–C, B–D with everything seen, D has no route when only A
is visited and has distance 2 when A and B are visited. -/
theorem C17_visiting_more_keeps_routes :
    (∀ (n : Nat) (g : Galaxy n) (o : Fin n) (seen visited visited' : Fin n → Bool)
        (extra : Nat),
      (∀ s, visited s = true → visited' s = true) →
      ∃ m m', fromPlayer g (n + extra) (pilot o false true seen visited) = some m ∧
        fromPlayer g (n + extra) (pilot o false true seen visited') = some m' ∧
        ∀ s, m.HasRoute s = true →
          m'.HasRoute s = true ∧ m'.Distance s ≤ m.Distance s) ∧
    ((fromPlayer forkGalaxy 4 (pilot 0 false true (allOf 4) (onlyOf [0]))).map
        (fun m => m.HasRoute 3) = some false ∧
      (fromPlayer forkGalaxy 4 (pilot 0 false true (allOf 4) (onlyOf [0, 1]))).map
        (fun m => m.Distance 3) = some 2) := by
  refine ⟨?_, by decide, by decide⟩
  intro n g o seen visited visited' extra hsub
  obtain ⟨m, hm, _, hl⟩ := fromPlayer_hyper_spec g o seen visited extra
  obtain ⟨m', hm', _, hl'⟩ := fromPlayer_hyper_spec g o seen visited' extra
  refine ⟨m, m', hm, hm', labelled_mono m m' hl hl' ?_⟩
  rintro a b ⟨h1, h2, h3⟩
  refine ⟨h1, h2, ?_⟩
  rcases h3 with h3 | h3
  · exact Or.inl (hsub b h3)
  · exact Or.inr (hsub a h3)

/-- C17 on the fixture A–B, A–C, B–D: going from visited {A} to visited {A, B}
keeps the route to B and does not lengthen it. -/
theorem C17_visiting_more_keeps_routes_witness :
    (∀ s : Fin 4, (onlyOf [0] : Fin 4 → Bool) s = true → (onlyOf [0, 1] : Fin 4 → Bool) s = true) ∧
    ∃ m m', fromPlayer forkGalaxy 4 (pilot 0 false true (allOf 4) (onlyOf [0])) = some m ∧
      fromPlayer forkGalaxy 4 (pilot 0 false true (allOf 4) (onlyOf [0, 1])) = some m' ∧
      m.HasRoute 1 = true ∧ m'.HasRoute 1 = true ∧ m'.Distance 1 ≤ m.Distance 1 := by
  obtain ⟨m, m', hm, hm', h⟩ := C17_visiting_more_keeps_routes.1 4 forkGalaxy 0 (allOf 4)
    (onlyOf [0]) (onlyOf [0, 1]) 0 (by decide)
  have hev : (fromPlayer forkGalaxy 4 (pilot 0 false true (allOf 4) (onlyOf [0]))).map
      (fun m => m.HasRoute 1) = some true := by decide
  have hm1 : fromPlayer forkGalaxy 4 (pilot 0 false true (allOf 4) (onlyOf [0])) = some m := hm
  rw [hm1] at hev
  have hr : m.HasRoute 1 = true := by simpa using hev
  exact ⟨by decide, m, m', hm1, hm', hr, h 1 hr⟩

/-! ## Termination: every system enters a frontier at most once -/

theorem tidy_visit {n : Nat} (adm : Fin n → Fin n → Bool) (steps : Int) (a link : Fin n)
    (st : LabelMap n × List (Fin n)) (h : Tidy st) : Tidy (bfsVisit adm steps a st link) := by
  unfold bfsVisit
  by_cases hadm : adm a link = true
  · rw [if_pos hadm]
    cases hl : st.1 link with
    | some v =>
      simp only [Option.isSome_some, if_true]
      exact h
    | none =>
      simp only [Option.isSome_none, Bool.false_eq_true, if_false]
      obtain ⟨hnd, hlab⟩ := h
      have hnot : link ∉ st.2 := by
        intro hmem
        obtain ⟨j, hj⟩ := hlab link hmem
        rw [hl] at hj
        cases hj
      constructor
      · exact List.Nodup.append hnd (List.nodup_singleton link)
          (by
            intro x hx hx'
            rw [List.mem_singleton] at hx'
            subst hx'
            exact hnot hx)
      · intro x hx
        simp only [LabelMap.insert]
        by_cases hxl : x = link
        · exact ⟨steps, by rw [if_pos hxl]⟩
        · rw [if_neg hxl]
          rcases List.mem_append.1 hx with hx | hx
          · exact hlab x hx
          · exact absurd (List.mem_singleton.1 hx) hxl
  · rw [if_neg hadm]
    exact h

theorem tidy_links {n : Nat} (adm : Fin n → Fin n → Bool) (steps : Int) (a : Fin n)
    (ls : List (Fin n)) : ∀ st : LabelMap n × List (Fin n), Tidy st →
    Tidy (ls.foldl (bfsVisit adm steps a) st) := by
  induction ls with
  | nil =>
    intro st h
    exact h
  | cons l ls ih =>
    intro st h
    rw [List.foldl_cons]
    exact ih _ (tidy_visit adm steps a l st h)

theorem tidy_edge {n : Nat} (adj : Fin n → List (Fin n)) (adm : Fin n → Fin n → Bool)
    (steps : Int) (edge : List (Fin n)) : ∀ st : LabelMap n × List (Fin n), Tidy st →
    Tidy (edge.foldl (fun st system => (adj system).foldl (bfsVisit adm steps system) st) st) := by
  induction edge with
  | nil =>
    intro st h
    exact h
  | cons a edge ih =>
    intro st h
    rw [List.foldl_cons]
    exact ih _ (tidy_links adm steps a (adj a) st h)

theorem tidy_expand {n : Nat} (adj : Fin n → List (Fin n)) (adm : Fin n → Fin n → Bool)
    (steps : Int) (d : LabelMap n) (edge : List (Fin n)) :
    Tidy (bfsExpand adj adm steps d edge) :=
  tidy_edge adj adm steps edge (d, []) ⟨List.nodup_nil, fun x hx => absurd hx (List.not_mem_nil x)⟩

theorem levelInv_state {n : Nat} (adj : Fin n → List (Fin n)) (adm : Fin n → Fin n → Bool)
    (o : Fin n) (k : Nat) :
    LevelInv (Admits adj adm) o k (bfsState adj adm (LabelMap.empty.insert o 0) [o] k).1
      (bfsState adj adm (LabelMap.empty.insert o 0) [o] k).2 := by
  induction k with
  | zero => exact levelInv_seed _ o
  | succ k ih => exact levelInv_expand adj adm ih

theorem state_nodup {n : Nat} (adj : Fin n → List (Fin n)) (adm : Fin n → Fin n → Bool)
    (o : Fin n) (k : Nat) :
    (bfsState adj adm (LabelMap.empty.insert o 0) [o] k).2.Nodup := by
  cases k with
  | zero => exact List.nodup_singleton o
  | succ k => exact (tidy_expand adj adm _ _ _).1

theorem loop_runs {n : Nat} (adj : Fin n → List (Fin n)) (adm : Fin n → Fin n → Bool)
    (d : LabelMap n) (edge : List (Fin n)) (i : Nat) : ∀ (fuel j : Nat),
    (bfsState adj adm d edge (j + i)).2 = [] →
    (∀ t, t < i → (bfsState adj adm d edge (j + t)).2 ≠ []) → i ≤ fuel →
    bfsLoop adj adm fuel ((j : Int) + 1) (bfsState adj adm d edge j).1
      (bfsState adj adm d edge j).2 = some (bfsState adj adm d edge (j + i)).1 := by
  induction i with
  | zero =>
    intro fuel j hempty _ _
    rw [Nat.add_zero] at hempty ⊢
    rw [hempty]
    exact bfsLoop_nil adj adm fuel _ _
  | succ i ih =>
    intro fuel j hempty hbefore hfuel
    have hne := hbefore 0 (Nat.succ_pos i)
    rw [Nat.add_zero] at hne
    cases fuel with
    | zero => omega
    | succ f =>
      have hnext := ih f (j + 1) (by rw [Nat.add_assoc, Nat.add_comm 1 i]; exact hempty)
        (fun t ht => by
          have := hbefore (t + 1) (by omega)
          rw [Nat.add_assoc, Nat.add_comm 1 t]
          exact this)
        (by omega)
      rw [Nat.add_assoc, Nat.add_comm 1 i] at hnext
      rw [← hnext]
      cases hst : (bfsState adj adm d edge j).2 with
      | nil => exact absurd hst hne
      | cons x rest =>
        simp only [bfsLoop, bfsState, hst]
        push_cast
        rfl

theorem bfs_frontier_run {n : Nat} (adj : Fin n → List (Fin n)) (adm : Fin n → Fin n → Bool)
    (o : Fin n) :
    FrontierRun n (bfsState adj adm (LabelMap.empty.insert o 0) [o])
      (fun fuel => bfsLoop adj adm fuel 1 (LabelMap.empty.insert o 0) [o]) := by
  have hinv := levelInv_state adj adm o
  have hlast : (bfsState adj adm (LabelMap.empty.insert o 0) [o] n).2 = [] := by
    cases hst : (bfsState adj adm (LabelMap.empty.insert o 0) [o] n).2 with
    | nil => rfl
    | cons x rest =>
      have hx : x ∈ (bfsState adj adm (LabelMap.empty.insert o 0) [o] n).2 := by
        rw [hst]
        exact List.mem_cons_self x rest
      have := shortest_lt_card (((hinv n).2 x).1 hx)
      omega
  have hex : ∃ k, (bfsState adj adm (LabelMap.empty.insert o 0) [o] k).2 = [] := ⟨n, hlast⟩
  refine ⟨⟨Nat.find hex, Nat.find_min' hex hlast, Nat.find_spec hex,
    fun i hi => Nat.find_min hex hi, ?_⟩, state_nodup adj adm o, ?_⟩
  · intro fuel hfuel
    have h := loop_runs adj adm (LabelMap.empty.insert o 0) [o] (Nat.find hex) fuel 0
      (by rw [Nat.zero_add]; exact Nat.find_spec hex)
      (fun t ht => by rw [Nat.zero_add]; exact Nat.find_min hex ht) hfuel
    simpa [bfsState] using h
  · intro i j x hij hxi hxj
    exact hij (shortest_unique (((hinv i).2 x).1 hxi) (((hinv j).2 x).1 hxj))

theorem InitState_eq {n : Nat} (g : Galaxy n) (d : LabelMap n) (edge : List (Fin n)) :
    InitState g d edge = bfsState g.Links (fun _ _ => true) d edge := by
  funext k
  induction k with
  | zero => rfl
  | succ k ih => simp only [InitState, bfsState, ih, InitExpand_eq]

theorem InitHyperState_eq {n : Nat} (g : Galaxy n) (player : PlayerInfo n) (d : LabelMap n)
    (edge : List (Fin n)) :
    InitHyperState g player d edge = bfsState g.Links (hyperAdm player) d edge := by
  funext k
  induction k with
  | zero => rfl
  | succ k ih => simp only [InitHyperState, bfsState, ih, InitHyperExpand_eq]

theorem InitJumpState_eq {n : Nat} (g : Galaxy n) (player : PlayerInfo n) (d : LabelMap n)
    (edge : List (Fin n)) :
    InitJumpState g player d edge = bfsState g.Neighbors (jumpAdm player) d edge := by
  funext k
  induction k with
  | zero => rfl
  | succ k ih => simp only [InitJumpState, bfsState, ih, InitJumpExpand_eq]

/-- C18. Construction terminates on every finite graph.  In each of `Init`,
`InitHyper` and `InitJump`, started as the constructors start them (origin `o`
labelled 0, frontier `[o]`), in a galaxy of `n` systems: every frontier is free
of duplicates and no system is in two frontiers, the frontier is empty after
some `k ≤ n` expansions, and with fuel for `k` or more expansions, so in
particular for `n + 1`, the loop returns.  Hence both constructors return with
fuel `n + 1`; on the three-system fixture with a cycle, self-links and repeated
entries they return the labels 0, 1, 2. -/
theorem C18_construction_terminates :
    (∀ (n : Nat) (g : Galaxy n) (player : PlayerInfo n) (o : Fin n),
      FrontierRun n (InitState g (LabelMap.empty.insert o 0) [o])
        (fun fuel => InitLoop g fuel 1 (LabelMap.empty.insert o 0) [o]) ∧
      FrontierRun n (InitHyperState g player (LabelMap.empty.insert o 0) [o])
        (fun fuel => InitHyperLoop g player fuel 1 (LabelMap.empty.insert o 0) [o]) ∧
      FrontierRun n (InitJumpState g player (LabelMap.empty.insert o 0) [o])
        (fun fuel => InitJumpLoop g player fuel 1 (LabelMap.empty.insert o 0) [o])) ∧
    (∀ (n : Nat) (g : Galaxy n) (o : Fin n), ∃ m, fromCenter g (n + 1) o = some m) ∧
    (∀ (n : Nat) (g : Galaxy n) (player : PlayerInfo n),
      ∃ m, fromPlayer g (n + 1) player = some m) ∧
    ((fromCenter knotGalaxy 4 0).map (fun m => [0, 1, 2].map m.Distance) = some [0, 1, 2] ∧
      (fromPlayer knotGalaxy 4 (pilot 0 false true (allOf 3) (allOf 3))).map
        (fun m => [0, 1, 2].map m.Distance) = some [0, 1, 2] ∧
      (fromPlayer knotGalaxy 4 (pilot 0 true false (allOf 3) (allOf 3))).map
        (fun m => [0, 1, 2].map m.Distance) = some [0, 1, 2]) := by
  refine ⟨?_, ?_, ?_, by decide, by decide, by decide⟩
  · intro n g player o
    refine ⟨?_, ?_, ?_⟩
    · have h := bfs_frontier_run g.Links (fun _ _ => true) o
      rw [← InitState_eq] at h
      have hloop : (fun fuel => InitLoop g fuel 1 (LabelMap.empty.insert o 0) [o])
          = fun fuel => bfsLoop g.Links (fun _ _ => true) fuel 1
              (LabelMap.empty.insert o 0) [o] := by
        funext fuel
        rw [InitLoop_eq]
      rw [hloop]
      exact h
    · have h := bfs_frontier_run g.Links (hyperAdm player) o
      rw [← InitHyperState_eq] at h
      have hloop : (fun fuel => InitHyperLoop g player fuel 1 (LabelMap.empty.insert o 0) [o])
          = fun fuel => bfsLoop g.Links (hyperAdm player) fuel 1
              (LabelMap.empty.insert o 0) [o] := by
        funext fuel
        rw [InitHyperLoop_eq]
      rw [hloop]
      exact h
    · have h := bfs_frontier_run g.Neighbors (jumpAdm player) o
      rw [← InitJumpState_eq] at h
      have hloop : (fun fuel => InitJumpLoop g player fuel 1 (LabelMap.empty.insert o 0) [o])
          = fun fuel => bfsLoop g.Neighbors (jumpAdm player) fuel 1
              (LabelMap.empty.insert o 0) [o] := by
        funext fuel
        rw [InitJumpLoop_eq]
      rw [hloop]
      exact h
  · intro n g o
    obtain ⟨m, hm, _⟩ := fromCenter_spec g o 1
    exact ⟨m, hm⟩
  · intro n g player
    obtain ⟨m, hm, _⟩ := fromPlayer_total g player 1
    exact ⟨m, hm⟩

/-- C18 on the three-system fixture with a cycle, self-links and repeated
entries: the loop of `Init` from origin A empties its frontier after at most 3
expansions and returns with fuel 4. -/
theorem C18_construction_terminates_witness :
    ∃ k, k ≤ 3 ∧ (InitState knotGalaxy (LabelMap.empty.insert 0 0) [0] k).2 = [] ∧
      InitLoop knotGalaxy 4 1 (LabelMap.empty.insert 0 0) [0]
        = some (InitState knotGalaxy (LabelMap.empty.insert 0 0) [0] k).1 := by
  obtain ⟨⟨k, hk, hempty, _, hloop⟩, _, _⟩ :=
    (C18_construction_terminates.1 3 knotGalaxy (shipless (allOf 3) (allOf 3)) 0).1
  exact ⟨k, hk, hempty, hloop 4 (by omega)⟩

/-! ## Independence of the enumeration order -/

theorem labelled_unique {n : Nat} {E : Fin n → Fin n → Prop} {o : Fin n} {d d' : LabelMap n}
    (hl : Labelled E o d) (hl' : Labelled E o d') : d = d' := by
  funext s
  apply Option.ext
  intro j
  simp only [Option.mem_def]
  rw [hl s j, hl' s j]

theorem queries_of_labels {n : Nat} (m m' : DistanceMap n) (h : m.distance = m'.distance)
    (s : Fin n) : m.HasRoute s = m'.HasRoute s ∧ m.Distance s = m'.Distance s := by
  unfold HasRoute Distance
  rw [h]
  exact ⟨rfl, rfl⟩

/-- C19. Labels do not depend on the enumeration order of the adjacency
vectors: if two galaxies have, for every system, the same members in `Links()`
and the same members in `Neighbors()` (in any order and multiplicity), then in
each of the three modes the two constructed maps agree on `HasRoute(s)` and
`Distance(s)` for every system `s`. -/
theorem C19_labels_independent_of_order {n : Nat} (g g' : Galaxy n) (o : Fin n) (hyper : Bool)
    (seen visited : Fin n → Bool) (extra : Nat)
    (hL : ∀ a b, b ∈ g.Links a ↔ b ∈ g'.Links a)
    (hN : ∀ a b, b ∈ g.Neighbors a ↔ b ∈ g'.Neighbors a) :
    (∃ m m', fromCenter g (n + extra) o = some m ∧ fromCenter g' (n + extra) o = some m' ∧
      ∀ s, m.HasRoute s = m'.HasRoute s ∧ m.Distance s = m'.Distance s) ∧
    (∃ m m', fromPlayer g (n + extra) (pilot o false true seen visited) = some m ∧
      fromPlayer g' (n + extra) (pilot o false true seen visited) = some m' ∧
      ∀ s, m.HasRoute s = m'.HasRoute s ∧ m.Distance s = m'.Distance s) ∧
    (∃ m m', fromPlayer g (n + extra) (pilot o true hyper seen visited) = some m ∧
      fromPlayer g' (n + extra) (pilot o true hyper seen visited) = some m' ∧
      ∀ s, m.HasRoute s = m'.HasRoute s ∧ m.Distance s = m'.Distance s) := by
  refine ⟨?_, ?_, ?_⟩
  · obtain ⟨m, hm, _, hl⟩ := fromCenter_spec g o extra
    obtain ⟨m', hm', _, hl'⟩ := fromCenter_spec g' o extra
    have hE : linkEdge g = linkEdge g' := by
      funext a b
      exact propext (hL a b)
    rw [← hE] at hl'
    exact ⟨m, m', hm, hm', queries_of_labels m m' (labelled_unique hl hl')⟩
  · obtain ⟨m, hm, _, hl⟩ := fromPlayer_hyper_spec g o seen visited extra
    obtain ⟨m', hm', _, hl'⟩ := fromPlayer_hyper_spec g' o seen visited extra
    have hE : hyperEdge g (pilot o false true seen visited)
        = hyperEdge g' (pilot o false true seen visited) := by
      funext a b
      unfold hyperEdge
      rw [hL a b]
    rw [← hE] at hl'
    exact ⟨m, m', hm, hm', queries_of_labels m m' (labelled_unique hl hl')⟩
  · obtain ⟨m, hm, _, hl⟩ := fromPlayer_jump_spec g o hyper seen visited extra
    obtain ⟨m', hm', _, hl'⟩ := fromPlayer_jump_spec g' o hyper seen visited extra
    have hE : jumpEdge g (pilot o true hyper seen visited)
        = jumpEdge g' (pilot o true hyper seen visited) := by
      funext a b
      unfold jumpEdge
      rw [hN a b]
    rw [← hE] at hl'
    exact ⟨m, m', hm, hm', queries_of_labels m m' (labelled_unique hl hl')⟩

/-- C19 on the linear fixture A–B–C–D and its copy with shuffled, repeated link
entries: the two unrestricted maps from origin A agree on every system. -/
theorem C19_labels_independent_of_order_witness :
    (∀ a b : Fin 4, b ∈ lineGalaxy.Links a ↔ b ∈ shuffledLineGalaxy.Links a) ∧
    (∀ a b : Fin 4, b ∈ lineGalaxy.Neighbors a ↔ b ∈ shuffledLineGalaxy.Neighbors a) ∧
    ∃ m m', fromCenter lineGalaxy 4 0 = some m ∧ fromCenter shuffledLineGalaxy 4 0 = some m' ∧
      ∀ s, m.HasRoute s = m'.HasRoute s ∧ m.Distance s = m'.Distance s :=
  ⟨by decide, by decide,
    (C19_labels_independent_of_order lineGalaxy shuffledLineGalaxy 0 false (allOf 4) (allOf 4) 0
      (by decide) (by decide)).1⟩

/-! ## Knowledge gating against the unrestricted map -/

theorem fromPlayer_all_known {n : Nat} (g : Galaxy n) (o : Fin n) (fuel : Nat) :
    fromPlayer g fuel (pilot o false true (allOf n) (allOf n)) = fromCenter g fuel o := by
  have hadm : hyperAdm (pilot o false true (allOf n) (allOf n)) = fun _ _ => true := by
    funext a b
    simp [hyperAdm, pilot, allOf]
  simp only [fromPlayer, pilot, fromCenter, InitHyper, Init, InitHyperLoop_eq, InitLoop_eq]
  simp only [pilot] at hadm
  simp [hadm]

/-- C20. Knowledge gating never shortens a route: for every galaxy, origin and
knowledge predicates, each system labelled by the hyperdrive-mode map of a
player in `o` is labelled by the unrestricted map from `o`, at an unrestricted
distance that is not larger; and when every system is seen and visited the two
constructors return the same map. -/
theorem C20_gating_never_shortens :
    (∀ (n : Nat) (g : Galaxy n) (o : Fin n) (seen visited : Fin n → Bool) (extra : Nat),
      ∃ mh mu, fromPlayer g (n + extra) (pilot o false true seen visited) = some mh ∧
        fromCenter g (n + extra) o = some mu ∧
        ∀ s, mh.HasRoute s = true → mu.HasRoute s = true ∧ mu.Distance s ≤ mh.Distance s) ∧
    (∀ (n : Nat) (g : Galaxy n) (o : Fin n) (fuel : Nat),
      fromPlayer g fuel (pilot o false true (allOf n) (allOf n)) = fromCenter g fuel o) := by
  constructor
  · intro n g o seen visited extra
    obtain ⟨mh, hmh, _, hlh⟩ := fromPlayer_hyper_spec g o seen visited extra
    obtain ⟨mu, hmu, _, hlu⟩ := fromCenter_spec g o extra
    exact ⟨mh, mu, hmh, hmu, labelled_mono mh mu hlh hlu (fun a b h => h.1)⟩
  · intro n g o fuel
    exact fromPlayer_all_known g o fuel

/-- C20 on the fixture A–B, A–C, B–D with origin A, everything seen and A, B
visited: D is labelled in hyperdrive mode, hence in unrestricted mode, at a
distance that is not larger. -/
theorem C20_gating_never_shortens_witness :
    ∃ mh mu, fromPlayer forkGalaxy 4 (pilot 0 false true (allOf 4) (onlyOf [0, 1])) = some mh ∧
      fromCenter forkGalaxy 4 0 = some mu ∧ mh.HasRoute 3 = true ∧
      mu.HasRoute 3 = true ∧ mu.Distance 3 ≤ mh.Distance 3 := by
  obtain ⟨mh, mu, hmh, hmu, h⟩ :=
    C20_gating_never_shortens.1 4 forkGalaxy 0 (allOf 4) (onlyOf [0, 1]) 0
  have hev : (fromPlayer forkGalaxy 4 (pilot 0 false true (allOf 4) (onlyOf [0, 1]))).map
      (fun m => m.HasRoute 3) = some true := by decide
  have hm' : fromPlayer forkGalaxy 4 (pilot 0 false true (allOf 4) (onlyOf [0, 1])) = some mh :=
    hmh
  rw [hm'] at hev
  have hr : mh.HasRoute 3 = true := by simpa using hev
  exact ⟨mh, mu, hm', hmu, hr, h 3 hr⟩

end DistanceMap
